import Mathlib

/-!
Verification development for the comment extraction and selective-removal
pipeline of `src/preprocessing/comment_extractor.py`.

The source text is modelled as a `List Char` (Python `str` indices are code
points, so `Nat` offsets into a `List Char` coincide with Python slicing).
Each Python helper is translated into an executable Lean function:

* `LINE_RE_CRY = //[^\n]*`, `BLOCK_RE_CRY = /\*(?!\*)(.*?)\*/` (dotall) and
  `DOC_RE_CRY = /\*\*.*?\*/` (dotall) become `lineMatchAt`, `blockMatchAt`
  and `docMatchAt`; `re.finditer` becomes `finditer` (left-to-right scan,
  non-overlapping, continue at each match end).
* `_collect_spans` becomes `collectSpans` (find block and line matches,
  sort by start, drop overlaps keeping the earlier span, coalesce adjacent
  line comments separated by exactly one line break plus indentation).
* `_extend_end_consume_eol_if_standalone`, `_make_code_context`,
  `_read_decision_cache`, `_append_decision` and the body of
  `extract_strip_cry_comments` (with its closures `_apply_decision_and_emit`
  and `_flush_pending`) become `extendEnd`, `makeCodeContext`, `replayLog`,
  and the state-passing pipeline `extractStripCryComments`.

`hashlib.sha1` of the comment text is modelled by the comment text itself:
the cache key is a content hash of the exact text, assumed injective, so the
text is a faithful stand-in for the fingerprint.  The external oracle
`decide_keep_drop_batch` is a parameter of type `Oracle`; the pipeline state
additionally records, as verification instrumentation, the items sent to the
oracle, the number of batched oracle invocations, and the entries appended to
the persistent decision cache.  The dictionary lookup `decisions[sha]` in
`_apply_decision_and_emit` can raise `KeyError` in Python, so the rewriting
functions return `Option`; totality theorems show the `none` case is
unreachable.
-/

namespace DataPreprocess

abbrev Content := List Char

/-- Python slice `content[a:b]`. -/
def slice (c : Content) (a b : Nat) : Content := (c.drop a).take (b - a)

/-- Length of the longest prefix containing no newline (regex `[^\n]*`). -/
def takeUntilNl : Content → Nat
  | [] => 0
  | ch :: t => if ch = '\n' then 0 else 1 + takeUntilNl t

/-- Relative index of the first occurrence of the two-character sequence
`a b`, scanning left to right (used for the lazy `.*?` up to a closing
delimiter). -/
def findSub2 (a b : Char) : Content → Option Nat
  | [] => none
  | [_] => none
  | x :: y :: t =>
    if x = a ∧ y = b then some 0 else (findSub2 a b (y :: t)).map (· + 1)

/-- Match of `LINE_RE_CRY = //[^\n]*` anchored at position `p`:
returns the end offset of the match. -/
def lineMatchAt (c : Content) (p : Nat) : Option Nat :=
  match c.drop p with
  | '/' :: '/' :: rest => some (p + 2 + takeUntilNl rest)
  | _ => none

/-- Match of `BLOCK_RE_CRY = /\*(?!\*)(.*?)\*/` (dotall) anchored at `p`:
`/*` not followed by `*`, then the lazy body up to the earliest `*/`. -/
def blockMatchAt (c : Content) (p : Nat) : Option Nat :=
  match c.drop p with
  | '/' :: '*' :: rest =>
    if rest.head? = some '*' then none
    else
      match findSub2 '*' '/' rest with
      | some q => some (p + 2 + q + 2)
      | none => none
  | _ => none

/-- Match of `DOC_RE_CRY = /\*\*.*?\*/` (dotall) anchored at `p`. -/
def docMatchAt (c : Content) (p : Nat) : Option Nat :=
  match c.drop p with
  | '/' :: '*' :: '*' :: rest =>
    match findSub2 '*' '/' rest with
    | some q => some (p + 3 + q + 2)
    | none => none
  | _ => none

/-- `re.finditer` scan: try a match at each position, yield non-overlapping
matches left to right, resuming at each match end.  `fuel` bounds the scan
(it is instantiated with `c.length + 1`, which is always enough since the
position strictly increases). -/
def finditerAux (f : Content → Nat → Option Nat) (c : Content) :
    Nat → Nat → List (Nat × Nat)
  | 0, _ => []
  | fuel + 1, p =>
    if p < c.length then
      match f c p with
      | some e => (p, e) :: finditerAux f c fuel (max e (p + 1))
      | none => finditerAux f c fuel (p + 1)
    else []

def finditer (f : Content → Nat → Option Nat) (c : Content) : List (Nat × Nat) :=
  finditerAux f c (c.length + 1) 0

inductive Kind where
  | line
  | block
deriving DecidableEq

structure Span where
  s : Nat
  e : Nat
  kind : Kind
deriving DecidableEq

/-- The candidate spans of `_collect_spans`: all block matches followed by
all line matches (the order in which the Python code appends them). -/
def rawSpans (c : Content) : List Span :=
  (finditer blockMatchAt c).map (fun pe => ⟨pe.1, pe.2, Kind.block⟩) ++
    (finditer lineMatchAt c).map (fun pe => ⟨pe.1, pe.2, Kind.line⟩)

/-- Insertion step of `spans.sort(key=lambda t: t[0])` (starts are pairwise
distinct, so any comparison sort by start produces the same list). -/
def insertBySpan (x : Span) : List Span → List Span
  | [] => [x]
  | y :: t => if x.s < y.s then x :: y :: t else y :: insertBySpan x t

def sortSpans : List Span → List Span
  | [] => []
  | x :: t => insertBySpan x (sortSpans t)

/-- Overlap resolution of `_collect_spans`: keep a span iff it starts at or
after the end of the previously kept span (`last_end` starts at `-1`, which
every `Nat` start satisfies, so `0` is an equivalent initial bound). -/
def dropOverlap : List Span → Nat → List Span
  | [], _ => []
  | sp :: t, lastEnd =>
    if sp.s ≥ lastEnd then sp :: dropOverlap t sp.e else dropOverlap t lastEnd

/-- `re.fullmatch(r"[ \t]*", s)` for the tail after the line break. -/
def isHIndent : Content → Bool
  | [] => true
  | ch :: t => (ch == ' ' || ch == '\t') && isHIndent t

/-- `re.fullmatch(r"\r?\n[ \t]*", between)`: exactly one line break (LF or
CRLF) followed by optional horizontal whitespace. -/
def isOneBreak : Content → Bool
  | '\n' :: t => isHIndent t
  | '\r' :: '\n' :: t => isHIndent t
  | _ => false

/-- Inner loop of the coalescing pass: starting from the current run `cur`,
absorb the next span while it is a line comment separated from the end of
the run by exactly one line break plus indentation; otherwise emit `cur`
and restart the run at the next span. -/
def coalesceAux (c : Content) (cur : Span) : List Span → List Span
  | [] => [cur]
  | sp :: t =>
    if cur.kind = Kind.line ∧ sp.kind = Kind.line ∧
        isOneBreak (slice c cur.e sp.s) = true then
      coalesceAux c ⟨cur.s, sp.e, Kind.line⟩ t
    else
      cur :: coalesceAux c sp t

def coalesce (c : Content) : List Span → List Span
  | [] => []
  | sp :: t => coalesceAux c sp t

/-- The sorted, overlap-free span list of `_collect_spans` before
coalescing. -/
def nonOverlapSpans (c : Content) : List Span :=
  dropOverlap (sortSpans (rawSpans c)) 0

/-- `_collect_spans`. -/
def collectSpans (c : Content) : List Span :=
  coalesce c (nonOverlapSpans c)

/-! ## Rewriter helpers -/

/-- Index of the last `'\n'` in a list, if any (used for
`content.rfind("\n", 0, s)`). -/
def lastNl : Content → Option Nat
  | [] => none
  | ch :: t =>
    match lastNl t with
    | some m => some (m + 1)
    | none => if ch = '\n' then some 0 else none

/-- `content.find("\n", e)`, except that the Python result `-1` (not found)
is already replaced by `len(content)` as the caller does. -/
def findNlFrom (c : Content) (e : Nat) : Nat := e + takeUntilNl (c.drop e)

/-- Python `str` whitespace: the characters for which `str.isspace()`
holds — the set stripped by `str.strip()` and matched by `\s` in a `str`
regex (`Py_UNICODE_ISSPACE`): `\t\n\v\f\r`, `\x1c`–`\x1f`, space,
`\x85`, NBSP, and the Unicode space separators. -/
def pyWS (ch : Char) : Bool :=
  decide ((9 ≤ ch.toNat ∧ ch.toNat ≤ 13) ∨ (28 ≤ ch.toNat ∧ ch.toNat ≤ 32) ∨
    ch.toNat = 133 ∨ ch.toNat = 160 ∨ ch.toNat = 5760 ∨
    (8192 ≤ ch.toNat ∧ ch.toNat ≤ 8202) ∨ ch.toNat = 8232 ∨
    ch.toNat = 8233 ∨ ch.toNat = 8239 ∨ ch.toNat = 8287 ∨ ch.toNat = 12288)

/-- `s.strip() == ""`. -/
def isBlank (l : Content) : Bool := l.all pyWS

/-- `_extend_end_consume_eol_if_standalone`: if only whitespace surrounds
the comment on its line, extend the removed range past the trailing
newline; otherwise return `e` unchanged. -/
def extendEnd (c : Content) (s e : Nat) : Nat :=
  let bol := match lastNl (c.take s) with
    | some m => m + 1
    | none => 0
  let eol := findNlFrom c e
  let left := slice c bol s
  let right := slice c e eol
  if isBlank left = true ∧ isBlank right = true then
    if eol < c.length ∧ c.get? eol = some '\n' then eol + 1 else eol
  else e

/-- Length of the run of `'\n'` characters at the head of a list. -/
def nlPrefixLen : Content → Nat
  | [] => 0
  | ch :: t => if ch = '\n' then 1 + nlPrefixLen t else 0

/-- The `while idx < len(content) and content[idx] == "\n": idx += 1` loop
that consumes blank lines immediately following a dropped comment. -/
def skipNewlines (c : Content) (p : Nat) : Nat := p + nlPrefixLen (c.drop p)

/-- Length of the longest whitespace prefix (greedy `^\s*`). -/
def wsPrefixLen : Content → Nat
  | [] => 0
  | ch :: t => if pyWS ch = true then 1 + wsPrefixLen t else 0

/-- `re.sub(r"^\s*\n", "", snippet, count=1)`: remove the leading
whitespace up to and including the last newline inside the whitespace
prefix (greedy `\s*` backtracking to leave a `\n`); no change when the
whitespace prefix contains no newline. -/
def stripLeadingBlank (l : Content) : Content :=
  match lastNl (l.take (wsPrefixLen l)) with
  | some m => l.drop (m + 1)
  | none => l

/-- Splice out the (ordered, non-overlapping) matched ranges, keeping the
text between them: the effect of `re.sub(pat, "", s)` given the match
ranges. -/
def removeRanges (l : Content) : List (Nat × Nat) → Nat → Content
  | [], start => l.drop start
  | r :: t, start => slice l start r.1 ++ removeRanges l t r.2

/-- `DOC_RE_CRY.sub("", snippet)`. -/
def docSub (l : Content) : Content :=
  removeRanges l (finditer docMatchAt l) 0

/-- `_make_code_context`: the text from the end of the current comment to
the start of the next comment (or end of document), capped at `maxChars`,
with doc comments stripped and one leading blank prefix removed. -/
def makeCodeContext (c : Content) (afterEnd : Nat) (nextStart : Option Nat)
    (maxChars : Nat) : Content :=
  let stop := match nextStart with
    | some n => n
    | none => c.length
  let snippet := (slice c afterEnd stop).take maxChars
  stripLeadingBlank (docSub snippet)

/-! ## Decision cache -/

/-- In-memory decision map (Python `dict`), as an association list where
the most recent insertion is found first. -/
abbrev DMap := List (Content × Bool)

def dlookup : DMap → Content → Option Bool
  | [], _ => none
  | kv :: t, k => if kv.1 = k then some kv.2 else dlookup t k

def dinsert (m : DMap) (k : Content) (v : Bool) : DMap := (k, v) :: m

/-- `dict.setdefault`. -/
def dsetdefault (m : DMap) (k : Content) (v : Bool) : DMap :=
  match dlookup m k with
  | some _ => m
  | none => dinsert m k v

/-- `_read_decision_cache`: replay the append-only log in order; the most
recently appended record for a fingerprint wins.  Malformed lines are
skipped by the Python reader, so the log is modelled as the list of its
well-formed `(sha1, keep)` entries. -/
def replayLog (log : List (Content × Bool)) : DMap :=
  log.foldl (fun m p => dinsert m p.1 p.2) []

/-! ## The extraction pipeline -/

/-- One buffered comment (`{"s","e","sha1","comment","ctx"}`). -/
structure PendRec where
  s : Nat
  e : Nat
  sha : Content
  comment : Content
  ctx : Content
deriving DecidableEq

/-- One item of an oracle batch
(`{"comment_text", "file_path", "code_context"}`). -/
structure QItem where
  comment : Content
  file : String
  ctx : Content
deriving DecidableEq

/-- The external oracle `decide_keep_drop_batch`: one boolean per input
item, in order; a shorter (or empty) result models items the oracle failed
to resolve. -/
abbrev Oracle := List QItem → List Bool

/-- One entry of the returned `comments` list
(`{filename, sha1, comment, keep, snippet}`). -/
structure CRecord where
  file : String
  sha : Content
  comment : Content
  keep : Bool
  snippet : Content
deriving DecidableEq

/-- The mutable state of `extract_strip_cry_comments`.  `curCtx` is the
loop variable `ctx` captured by the closure `_apply_decision_and_emit`.
`appendLog`, `oracleCalls` and `queried` are instrumentation recording the
entries appended to the cache file, the number of
`decide_keep_drop_batch` invocations, and every item sent to the
oracle. -/
structure PState where
  decisions : DMap
  idx : Nat
  outParts : List Content
  comments : List CRecord
  pending : List PendRec
  curCtx : Content
  appendLog : List (Content × Bool)
  oracleCalls : Nat
  queried : List QItem
deriving DecidableEq

/-- The default decision `len(rec["comment"]) < 500` used for items the
oracle did not resolve. -/
def defaultKeep (comment : Content) : Bool := decide (comment.length < 500)

/-- `_apply_decision_and_emit`.  Note that the emitted record's `snippet`
field reads the enclosing loop's `ctx` variable (`curCtx`), not the
buffered `rec["ctx"]`, exactly as the Python closure does.  The dictionary
access `decisions[sha]` becomes an `Option` lookup. -/
def applyDecisionAndEmit (c : Content) (fn : String) (st : PState)
    (r : PendRec) : Option PState :=
  match dlookup st.decisions r.sha with
  | none => none
  | some keep =>
    let outParts :=
      if st.idx < r.s then st.outParts ++ [slice c st.idx r.s] else st.outParts
    let comments := st.comments ++ [⟨fn, r.sha, r.comment, keep, st.curCtx⟩]
    if keep then
      some { st with outParts := outParts ++ [r.comment], comments := comments,
                     idx := r.e }
    else
      some { st with outParts := outParts, comments := comments,
                     idx := skipNewlines c (extendEnd c r.s r.e) }

/-- The `for rec in pending` loop at the end of `_flush_pending`:
`decisions.setdefault(sha, default)` then `_apply_decision_and_emit`. -/
def applyAll (c : Content) (fn : String) : PState → List PendRec → Option PState
  | st, [] => some st
  | st, r :: t =>
    let st1 := { st with
      decisions := dsetdefault st.decisions r.sha (defaultKeep r.comment) }
    match applyDecisionAndEmit c fn st1 r with
    | none => none
    | some st2 => applyAll c fn st2 t

/-- The uncached pending items sent to the oracle
(`to_query` in `_flush_pending`). -/
def toQueryOf (st : PState) : List PendRec :=
  st.pending.filter (fun r => (dlookup st.decisions r.sha).isNone)

/-- The `(sha1, keep)` pairs produced by `zip(map_idx, keeps)`: Python's
`zip` truncates to the shorter list, so items beyond the oracle's answers
get no entry. -/
def newEntries (fn : String) (oracle : Oracle) (st : PState) :
    List (Content × Bool) :=
  ((toQueryOf st).zip
      (oracle ((toQueryOf st).map (fun r => QItem.mk r.comment fn r.ctx)))).map
    (fun p => (p.1.sha, p.2))

/-- The oracle-query phase of `_flush_pending`: when there are uncached
items, call the oracle once, store each returned decision in the
in-memory map, and append it to the persistent cache log. -/
def flushQueryState (fn : String) (oracle : Oracle) (st : PState) : PState :=
  if toQueryOf st = [] then st
  else
    { st with
      decisions := (newEntries fn oracle st).foldl
        (fun m p => dinsert m p.1 p.2) st.decisions,
      appendLog := st.appendLog ++ newEntries fn oracle st,
      oracleCalls := st.oracleCalls + 1,
      queried := st.queried ++
        (toQueryOf st).map (fun r => QItem.mk r.comment fn r.ctx) }

/-- `_flush_pending`: query the oracle for the uncached items, record the
returned decisions (also into the append-only cache file), then resolve
every pending item in order with the default as fallback, and clear the
buffer. -/
def flushPending (c : Content) (fn : String) (oracle : Oracle)
    (st : PState) : Option PState :=
  if st.pending = [] then some st
  else
    match applyAll c fn (flushQueryState fn oracle st)
        (flushQueryState fn oracle st).pending with
    | none => none
    | some st2 => some { st2 with pending := [] }

/-- The body of the `for i, (s, e, kind) in enumerate(spans)` loop for one
span, given the start of the next span (`_next_span_start`). -/
def stepSpan (c : Content) (fn : String) (oracle : Oracle) (bufSize : Nat)
    (ctxMax : Nat) (st : PState) (sp : Span) (nextS : Option Nat) :
    Option PState :=
  if sp.s < st.idx then some st
  else
    let ctext := slice c sp.s sp.e
    let sha := ctext
    let ctx := makeCodeContext c sp.e nextS ctxMax
    let st := { st with curCtx := ctx }
    if (dlookup st.decisions sha).isSome then
      match flushPending c fn oracle st with
      | none => none
      | some st1 => applyDecisionAndEmit c fn st1 ⟨sp.s, sp.e, sha, ctext, ctx⟩
    else
      let st1 := { st with pending := st.pending ++ [⟨sp.s, sp.e, sha, ctext, ctx⟩] }
      if st1.pending.length ≥ bufSize then flushPending c fn oracle st1
      else some st1

/-- The span loop. -/
def runSpans (c : Content) (fn : String) (oracle : Oracle) (bufSize : Nat)
    (ctxMax : Nat) : PState → List Span → Option PState
  | st, [] => some st
  | st, sp :: rest =>
    match stepSpan c fn oracle bufSize ctxMax st sp ((rest.head?).map Span.s) with
    | none => none
    | some st1 => runSpans c fn oracle bufSize ctxMax st1 rest

/-- The result of `extract_strip_cry_comments`: the comments list and the
rewritten content, plus the final in-memory decisions, the entries
appended to the persistent cache, and the oracle instrumentation. -/
structure ExtractResult where
  comments : List CRecord
  content : Content
  decisions : DMap
  appendLog : List (Content × Bool)
  oracleCalls : Nat
  queried : List QItem
deriving DecidableEq

/-- `extract_strip_cry_comments` (defaults `llm_buffer_size=8`,
`context_max_chars=600`).  The decision cache file is passed as the list
of its well-formed log entries. -/
def extractStripCryComments (fn : String) (c : Content)
    (cacheLog : List (Content × Bool)) (oracle : Oracle)
    (bufSize : Nat := 8) (ctxMax : Nat := 600) : Option ExtractResult :=
  let st0 : PState := ⟨replayLog cacheLog, 0, [], [], [], [], [], 0, []⟩
  match runSpans c fn oracle bufSize ctxMax st0 (collectSpans c) with
  | none => none
  | some st1 =>
    match flushPending c fn oracle st1 with
    | none => none
    | some st2 =>
      let outParts :=
        if st2.idx < c.length then st2.outParts ++ [slice c st2.idx c.length]
        else st2.outParts
      let newContent := (outParts.flatten).dropWhile (fun ch => ch = '\n')
      some ⟨st2.comments, newContent, st2.decisions, st2.appendLog,
            st2.oracleCalls, st2.queried⟩

/-! ## Auxiliary definitions for the statements -/

/-- A concrete total oracle answering `keep = true` for every item. -/
def oracleConstTrue : Oracle := fun items => items.map (fun _ => true)

/-- Modelled from the spec: `decide_keep_drop_batch` is defined in
`preprocessing/comment_policy_agent.py`, which is not among the sources
here (only its caller is).  The spec's oracle interface returns one
boolean per input item and tolerates absence or shortfall of results; an
oracle call failure (network/parse error inside the collaborator) is not
fatal and simply yields no result for the items of the batch.  A failing
call is therefore the oracle returning no booleans. -/
def oracleFailure : Oracle := fun _ => []

/-- Non-overlap ordering between spans: `a` ends at or before `b`
starts. -/
def spanLe (a b : Span) : Prop := a.e ≤ b.s

/-- Spans `a` and `b` were merged into one logical span: some output span
covers both. -/
def mergedIn (out : List Span) (a b : Span) : Prop :=
  ∃ sp ∈ out, sp.s ≤ a.s ∧ b.e ≤ sp.e

/-- State invariant of a run whose oracle never returns a result
(`oracleFailure`): cached decisions (`D0`, the replayed log) are
preserved with their values, every other in-memory decision is the
deterministic default for its fingerprint, nothing is appended to the
persistent cache, every emitted record's decision is the one stored for
its fingerprint, and fingerprints are the comment texts. -/
def failInv (D0 : DMap) (st : PState) : Prop :=
  (∀ k v, dlookup D0 k = some v → dlookup st.decisions k = some v) ∧
  (∀ k v, dlookup st.decisions k = some v →
    dlookup D0 k = some v ∨ v = defaultKeep k) ∧
  st.appendLog = [] ∧
  (∀ rec ∈ st.comments, dlookup st.decisions rec.sha = some rec.keep) ∧
  (∀ rec ∈ st.comments, rec.sha = rec.comment) ∧
  (∀ r ∈ st.pending, r.sha = r.comment)

/-- State invariant toward cache consistency: every in-memory decision is
reflected in the replay of the original log plus the entries appended so
far, every emitted record's fingerprint has an in-memory decision, the
replayed initial cache is contained in the in-memory decisions, every
fingerprint ever sent to the oracle was absent from the initial cache,
and buffered fingerprints are their comment texts. -/
def runInv (log : List (Content × Bool)) (st : PState) : Prop :=
  (∀ k, (dlookup st.decisions k).isSome = true →
    (dlookup (replayLog (log ++ st.appendLog)) k).isSome = true) ∧
  (∀ rec ∈ st.comments, (dlookup st.decisions rec.sha).isSome = true) ∧
  (∀ k, (dlookup (replayLog log) k).isSome = true →
    (dlookup st.decisions k).isSome = true) ∧
  (∀ q ∈ st.queried, dlookup (replayLog log) q.comment = none) ∧
  (∀ r ∈ st.pending, r.sha = r.comment)

/-! ## Properties of the span detector -/

theorem takeUntilNl_le : ∀ l : Content, takeUntilNl l ≤ l.length
  | [] => Nat.le_refl 0
  | ch :: t => by
    simp only [takeUntilNl, List.length_cons]
    split
    · omega
    · have := takeUntilNl_le t
      omega

theorem findSub2_bound (a b : Char) : ∀ (l : Content) (q : Nat),
    findSub2 a b l = some q → q + 2 ≤ l.length
  | [], q => by simp [findSub2]
  | [_], q => by simp [findSub2]
  | x :: y :: t, q => by
    simp only [findSub2]
    split
    · rintro ⟨rfl⟩
      simp only [List.length_cons]
      omega
    · simp only [Option.map_eq_some']
      rintro ⟨q', hq', rfl⟩
      have := findSub2_bound a b (y :: t) q' hq'
      simp only [List.length_cons] at this ⊢
      omega

theorem drop_get_zero {c : Content} {p : Nat} {ch : Char} {rest : Content}
    (h : c.drop p = ch :: rest) : c.get? p = some ch := by
  have h0 : (c.drop p).get? 0 = some ch := by rw [h]; rfl
  rwa [List.get?_drop, Nat.add_zero] at h0

theorem drop_cons_lt {c : Content} {p : Nat} {ch : Char} {rest : Content}
    (h : c.drop p = ch :: rest) : p < c.length := by
  by_contra hge
  rw [List.drop_eq_nil_of_le (by omega)] at h
  exact List.noConfusion h

theorem lineMatchAt_spec {c : Content} {p e : Nat}
    (h : lineMatchAt c p = some e) :
    p < e ∧ e ≤ c.length ∧ c.get? p = some '/' := by
  unfold lineMatchAt at h
  split at h
  next heq =>
    obtain rfl : p + 2 + takeUntilNl _ = e := Option.some_injective _ h
    rename_i rest
    have hlen : c.length - p = rest.length + 2 := by
      have := congrArg List.length heq
      simpa [List.length_drop] using this
    have hlt := drop_cons_lt heq
    have hk := takeUntilNl_le rest
    exact ⟨by omega, by omega, drop_get_zero heq⟩
  next => exact absurd h (by simp)

theorem blockMatchAt_spec {c : Content} {p e : Nat}
    (h : blockMatchAt c p = some e) :
    p < e ∧ e ≤ c.length ∧ c.get? p = some '/' := by
  unfold blockMatchAt at h
  split at h
  next rest heq =>
    split at h
    next => exact absurd h (by simp)
    next =>
      split at h
      next q hq =>
        obtain rfl : p + 2 + q + 2 = e := Option.some_injective _ h
        have hlen : c.length - p = rest.length + 2 := by
          have := congrArg List.length heq
          simpa [List.length_drop] using this
        have hlt := drop_cons_lt heq
        have hb := findSub2_bound '*' '/' rest q hq
        exact ⟨by omega, by omega, drop_get_zero heq⟩
      next => exact absurd h (by simp)
  next => exact absurd h (by simp)

theorem finditerAux_mem (f : Content → Nat → Option Nat) (c : Content) :
    ∀ (fuel p : Nat) (pe : Nat × Nat), pe ∈ finditerAux f c fuel p →
      p ≤ pe.1 ∧ f c pe.1 = some pe.2
  | 0, p, pe => by simp [finditerAux]
  | fuel + 1, p, pe => by
    simp only [finditerAux]
    split
    · cases hf : f c p with
      | some e =>
        intro hmem
        rcases List.mem_cons.mp hmem with rfl | hmem
        · exact ⟨Nat.le_refl _, hf⟩
        · have := finditerAux_mem f c fuel (max e (p + 1)) pe hmem
          exact ⟨by omega, this.2⟩
      | none =>
        intro hmem
        have := finditerAux_mem f c fuel (p + 1) pe hmem
        exact ⟨by omega, this.2⟩
    · simp

theorem rawSpans_mem {c : Content} {sp : Span} (h : sp ∈ rawSpans c) :
    sp.s < sp.e ∧ sp.e ≤ c.length ∧ c.get? sp.s = some '/' := by
  rcases List.mem_append.mp h with hb | hl
  · rcases List.mem_map.mp hb with ⟨pe, hpe, rfl⟩
    have := (finditerAux_mem blockMatchAt c _ 0 pe hpe).2
    exact blockMatchAt_spec this
  · rcases List.mem_map.mp hl with ⟨pe, hpe, rfl⟩
    have := (finditerAux_mem lineMatchAt c _ 0 pe hpe).2
    exact lineMatchAt_spec this

theorem insertBySpan_mem (x : Span) : ∀ (l : List Span) (y : Span),
    y ∈ insertBySpan x l ↔ y = x ∨ y ∈ l
  | [], y => by simp [insertBySpan]
  | z :: t, y => by
    simp only [insertBySpan]
    split
    · simp
    · simp only [List.mem_cons, insertBySpan_mem x t y]
      tauto

theorem sortSpans_mem : ∀ (l : List Span) (y : Span), y ∈ sortSpans l ↔ y ∈ l
  | [], y => Iff.rfl
  | x :: t, y => by
    simp only [sortSpans, insertBySpan_mem, sortSpans_mem t, List.mem_cons]

theorem dropOverlap_subset : ∀ (l : List Span) (lastEnd : Nat) (x : Span),
    x ∈ dropOverlap l lastEnd → x ∈ l
  | [], _, x => by simp [dropOverlap]
  | sp :: t, lastEnd, x => by
    simp only [dropOverlap]
    split
    · intro hx
      rcases List.mem_cons.mp hx with rfl | hx
      · exact List.mem_cons_self _ _
      · exact List.mem_cons_of_mem _ (dropOverlap_subset t sp.e x hx)
    · intro hx
      exact List.mem_cons_of_mem _ (dropOverlap_subset t lastEnd x hx)

theorem dropOverlap_lb : ∀ (l : List Span) (lastEnd : Nat) (x : Span),
    (∀ y ∈ l, y.s < y.e) → x ∈ dropOverlap l lastEnd → lastEnd ≤ x.s
  | [], _, x, _ => by simp [dropOverlap]
  | sp :: t, lastEnd, x, hpos => by
    simp only [dropOverlap]
    split
    next hge =>
      intro hx
      rcases List.mem_cons.mp hx with rfl | hx
      · exact hge
      · have hsp := hpos sp (List.mem_cons_self _ _)
        have := dropOverlap_lb t sp.e x (fun y hy => hpos y (List.mem_cons_of_mem _ hy)) hx
        omega
    next =>
      exact dropOverlap_lb t lastEnd x (fun y hy => hpos y (List.mem_cons_of_mem _ hy))

theorem dropOverlap_sorted : ∀ (l : List Span) (lastEnd : Nat),
    (∀ y ∈ l, y.s < y.e) → (dropOverlap l lastEnd).Pairwise spanLe
  | [], _, _ => List.Pairwise.nil
  | sp :: t, lastEnd, hpos => by
    simp only [dropOverlap]
    have htail : ∀ y ∈ t, y.s < y.e := fun y hy => hpos y (List.mem_cons_of_mem _ hy)
    split
    · exact List.Pairwise.cons
        (fun y hy => dropOverlap_lb t sp.e y htail hy)
        (dropOverlap_sorted t sp.e htail)
    · exact dropOverlap_sorted t lastEnd htail

theorem nonOverlapSpans_valid {c : Content} {sp : Span}
    (h : sp ∈ nonOverlapSpans c) :
    sp.s < sp.e ∧ sp.e ≤ c.length ∧ c.get? sp.s = some '/' :=
  rawSpans_mem ((sortSpans_mem _ _).mp (dropOverlap_subset _ _ _ h))

theorem nonOverlapSpans_sorted (c : Content) :
    (nonOverlapSpans c).Pairwise spanLe :=
  dropOverlap_sorted _ _
    (fun y hy => (rawSpans_mem ((sortSpans_mem _ _).mp hy)).1)

theorem coalesceAux_origin (c : Content) : ∀ (l : List Span) (cur : Span),
    ∀ y ∈ coalesceAux c cur l,
      (y.s = cur.s ∨ ∃ x ∈ l, y.s = x.s) ∧ (y.e = cur.e ∨ ∃ x ∈ l, y.e = x.e)
  | [], cur => by simp [coalesceAux]
  | sp :: t, cur => by
    intro y hy
    simp only [coalesceAux] at hy
    split at hy
    · have := coalesceAux_origin c t ⟨cur.s, sp.e, Kind.line⟩ y hy
      refine ⟨?_, ?_⟩
      · rcases this.1 with h | ⟨x, hx, hxe⟩
        · exact Or.inl h
        · exact Or.inr ⟨x, List.mem_cons_of_mem _ hx, hxe⟩
      · rcases this.2 with h | ⟨x, hx, hxe⟩
        · exact Or.inr ⟨sp, List.mem_cons_self _ _, h⟩
        · exact Or.inr ⟨x, List.mem_cons_of_mem _ hx, hxe⟩
    · rcases List.mem_cons.mp hy with rfl | hy
      · exact ⟨Or.inl rfl, Or.inl rfl⟩
      · have := coalesceAux_origin c t sp y hy
        refine ⟨?_, ?_⟩
        · rcases this.1 with h | ⟨x, hx, hxe⟩
          · exact Or.inr ⟨sp, List.mem_cons_self _ _, h⟩
          · exact Or.inr ⟨x, List.mem_cons_of_mem _ hx, hxe⟩
        · rcases this.2 with h | ⟨x, hx, hxe⟩
          · exact Or.inr ⟨sp, List.mem_cons_self _ _, h⟩
          · exact Or.inr ⟨x, List.mem_cons_of_mem _ hx, hxe⟩

theorem coalesceAux_spec (c : Content) : ∀ (l : List Span) (cur : Span),
    cur.s < cur.e → (∀ x ∈ l, cur.e ≤ x.s) → l.Pairwise spanLe →
    (∀ x ∈ l, x.s < x.e) →
    (coalesceAux c cur l).Pairwise spanLe ∧
      ∀ y ∈ coalesceAux c cur l, cur.s ≤ y.s ∧ y.s < y.e
  | [], cur, hcur, _, _, _ => by
    refine ⟨by simp [coalesceAux], ?_⟩
    intro y hy
    simp only [coalesceAux, List.mem_singleton] at hy
    subst hy
    exact ⟨Nat.le_refl _, hcur⟩
  | sp :: t, cur, hcur, hgap, hsorted, hpos => by
    have hsp := hpos sp (List.mem_cons_self _ _)
    have hcursp := hgap sp (List.mem_cons_self _ _)
    have htgap : ∀ x ∈ t, sp.e ≤ x.s := fun x hx =>
      (List.pairwise_cons.mp hsorted).1 x hx
    have htsorted := (List.pairwise_cons.mp hsorted).2
    have htpos : ∀ x ∈ t, x.s < x.e := fun x hx => hpos x (List.mem_cons_of_mem _ hx)
    simp only [coalesceAux]
    split
    · exact coalesceAux_spec c t ⟨cur.s, sp.e, Kind.line⟩
        (show cur.s < sp.e by omega) htgap htsorted htpos
    · have ih := coalesceAux_spec c t sp hsp htgap htsorted htpos
      refine ⟨List.Pairwise.cons ?_ ih.1, ?_⟩
      · intro y hy
        have := (ih.2 y hy).1
        simp only [spanLe]
        omega
      · intro y hy
        rcases List.mem_cons.mp hy with rfl | hy
        · exact ⟨Nat.le_refl _, hcur⟩
        · have := ih.2 y hy
          omega

theorem collectSpans_sorted (c : Content) :
    (collectSpans c).Pairwise spanLe ∧
      ∀ sp ∈ collectSpans c, sp.s < sp.e := by
  unfold collectSpans coalesce
  cases hno : nonOverlapSpans c with
  | nil => simp
  | cons h t =>
    have hvalid : ∀ y ∈ h :: t, y.s < y.e ∧ y.e ≤ c.length ∧ c.get? y.s = some '/' := by
      intro y hy
      exact nonOverlapSpans_valid (hno ▸ hy)
    have hsorted : (h :: t).Pairwise spanLe := hno ▸ nonOverlapSpans_sorted c
    have := coalesceAux_spec c t h (hvalid h (List.mem_cons_self _ _)).1
      (fun x hx => (List.pairwise_cons.mp hsorted).1 x hx)
      (List.pairwise_cons.mp hsorted).2
      (fun x hx => (hvalid x (List.mem_cons_of_mem _ hx)).1)
    exact ⟨this.1, fun sp hsp => (this.2 sp hsp).2⟩

theorem collectSpans_bounds {c : Content} {sp : Span}
    (h : sp ∈ collectSpans c) : sp.e ≤ c.length ∧ c.get? sp.s = some '/' := by
  unfold collectSpans coalesce at h
  rcases hno : nonOverlapSpans c with _ | ⟨hd, t⟩
  · rw [hno] at h; cases h
  · rw [hno] at h
    have horigin := coalesceAux_origin c t hd sp h
    constructor
    · rcases horigin.2 with he | ⟨x, hx, he⟩
      · exact he ▸ (nonOverlapSpans_valid (hno ▸ List.mem_cons_self hd t)).2.1
      · exact he ▸ (nonOverlapSpans_valid (hno ▸ List.mem_cons_of_mem _ hx)).2.1
    · rcases horigin.1 with hs | ⟨x, hx, hs⟩
      · exact hs ▸ (nonOverlapSpans_valid (hno ▸ List.mem_cons_self hd t)).2.2
      · exact hs ▸ (nonOverlapSpans_valid (hno ▸ List.mem_cons_of_mem _ hx)).2.2

/-- C9: every span produced by `_collect_spans` has `start < end`, and the
spans are pairwise non-overlapping and ordered by start strictly
ascending. -/
theorem C9_span_invariants (c : Content) :
    (∀ sp ∈ collectSpans c, sp.s < sp.e) ∧
    (collectSpans c).Pairwise (fun a b => a.e ≤ b.s ∧ a.s < b.s) := by
  obtain ⟨hsorted, hpos⟩ := collectSpans_sorted c
  refine ⟨hpos, ?_⟩
  refine List.Pairwise.imp_of_mem ?_ hsorted
  intro a b ha _ hab
  exact ⟨hab, lt_of_lt_of_le (hpos a ha) hab⟩

/-! ## Characterization of coalescing (C8) -/

theorem coalesceAux_head (c : Content) : ∀ (l : List Span) (cur : Span),
    (∀ x ∈ l, cur.e ≤ x.s) → l.Pairwise spanLe → (∀ x ∈ l, x.s < x.e) →
    ∃ e₁ k out, coalesceAux c cur l = ⟨cur.s, e₁, k⟩ :: out ∧ cur.e ≤ e₁
  | [], cur, _, _, _ => ⟨cur.e, cur.kind, [], rfl, Nat.le_refl _⟩
  | sp :: t, cur, hgap, hsort, hpos => by
    have hsp := hpos sp (List.mem_cons_self _ _)
    have hcursp := hgap sp (List.mem_cons_self _ _)
    simp only [coalesceAux]
    split
    · obtain ⟨e₁, k, out, heq, hle⟩ := coalesceAux_head c t ⟨cur.s, sp.e, Kind.line⟩
        (fun x hx => (List.pairwise_cons.mp hsort).1 x hx)
        (List.pairwise_cons.mp hsort).2
        (fun x hx => hpos x (List.mem_cons_of_mem _ hx))
      have hle' : sp.e ≤ e₁ := hle
      exact ⟨e₁, k, out, heq, by omega⟩
    · exact ⟨cur.e, cur.kind, coalesceAux c sp t, rfl, Nat.le_refl _⟩

/-- When the run ending at `cur` does not coalesce with the next span `b`,
every output span either ends at or before `b.s` (the emitted run) or
starts at or after `b.s` (spans from `b` onward): no output span bridges
the gap. -/
theorem coalesceAux_cover_bound (c : Content) {b : Span} {l₂ : List Span}
    {cur : Span} (h2 : cur.e ≤ b.s) (hb : b.s < b.e)
    (hgap : ∀ x ∈ l₂, b.e ≤ x.s) (hsort : l₂.Pairwise spanLe)
    (hpos : ∀ x ∈ l₂, x.s < x.e)
    (hcond : ¬(cur.kind = Kind.line ∧ b.kind = Kind.line ∧
      isOneBreak (slice c cur.e b.s) = true)) :
    ∀ sp ∈ coalesceAux c cur (b :: l₂), sp.e ≤ b.s ∨ b.s ≤ sp.s := by
  intro sp hsp
  simp only [coalesceAux, if_neg hcond] at hsp
  rcases List.mem_cons.mp hsp with rfl | hsp
  · exact Or.inl h2
  · right
    exact (coalesceAux_spec c l₂ b hb hgap hsort hpos).2 sp hsp |>.1

/-- Forward direction of the coalescing characterization: two adjacent
line spans separated by exactly one line break plus indentation end up
covered by a single coalesced span. -/
theorem coalesceAux_merges (c : Content) {a b : Span}
    (hak : a.kind = Kind.line) (hbk : b.kind = Kind.line)
    (hbreak : isOneBreak (slice c a.e b.s) = true) :
    ∀ (l₁ : List Span) (cur : Span) (l₂ : List Span),
    cur.s < cur.e → (∀ x ∈ l₁ ++ a :: b :: l₂, cur.e ≤ x.s) →
    (l₁ ++ a :: b :: l₂).Pairwise spanLe →
    (∀ x ∈ l₁ ++ a :: b :: l₂, x.s < x.e) →
    mergedIn (coalesceAux c cur (l₁ ++ a :: b :: l₂)) a b
  | [], cur, l₂, hcur, hgap, hsort, hpos => by
    simp only [List.nil_append] at hgap hsort hpos ⊢
    have hcura : cur.e ≤ a.s := hgap a (List.mem_cons_self _ _)
    have hpa : a.s < a.e := hpos a (List.mem_cons_self _ _)
    have hab : a.e ≤ b.s := (List.pairwise_cons.mp hsort).1 b (List.mem_cons_self _ _)
    have hpb : b.s < b.e := hpos b (List.mem_cons_of_mem _ (List.mem_cons_self _ _))
    have hsort2 := (List.pairwise_cons.mp hsort).2
    have hbl : ∀ x ∈ l₂, b.e ≤ x.s := (List.pairwise_cons.mp hsort2).1
    have hsortl := (List.pairwise_cons.mp hsort2).2
    have hposl : ∀ x ∈ l₂, x.s < x.e := fun x hx =>
      hpos x (List.mem_cons_of_mem _ (List.mem_cons_of_mem _ hx))
    by_cases hmrg : cur.kind = Kind.line ∧ a.kind = Kind.line ∧
        isOneBreak (slice c cur.e a.s) = true
    · -- the current run absorbs `a`, then also `b`
      have hstep1 : coalesceAux c cur (a :: b :: l₂) =
          coalesceAux c ⟨cur.s, a.e, Kind.line⟩ (b :: l₂) := by
        simp only [coalesceAux]
        rw [if_pos hmrg]
      have hstep2 : coalesceAux c ⟨cur.s, a.e, Kind.line⟩ (b :: l₂) =
          coalesceAux c ⟨cur.s, b.e, Kind.line⟩ l₂ := by
        simp [coalesceAux, hbk, hbreak]
      rw [hstep1, hstep2]
      obtain ⟨e₁, k, out, heq, hle⟩ := coalesceAux_head c l₂
        ⟨cur.s, b.e, Kind.line⟩ hbl hsortl hposl
      rw [heq]
      have hle' : b.e ≤ e₁ := hle
      exact ⟨⟨cur.s, e₁, k⟩, List.mem_cons_self _ _,
        show cur.s ≤ a.s by omega, hle'⟩
    · -- `a` starts a fresh run which then absorbs `b`
      have hstep1 : coalesceAux c cur (a :: b :: l₂) =
          cur :: coalesceAux c a (b :: l₂) := by
        simp only [coalesceAux]
        rw [if_neg hmrg]
      have hstep2 : coalesceAux c a (b :: l₂) =
          coalesceAux c ⟨a.s, b.e, Kind.line⟩ l₂ := by
        simp [coalesceAux, hak, hbk, hbreak]
      rw [hstep1, hstep2]
      obtain ⟨e₁, k, out, heq, hle⟩ := coalesceAux_head c l₂
        ⟨a.s, b.e, Kind.line⟩ hbl hsortl hposl
      rw [heq]
      have hle' : b.e ≤ e₁ := hle
      exact ⟨⟨a.s, e₁, k⟩, List.mem_cons_of_mem _ (List.mem_cons_self _ _),
        show a.s ≤ a.s from Nat.le_refl _, hle'⟩
  | x :: t, cur, l₂, hcur, hgap, hsort, hpos => by
    have hx : x.s < x.e := hpos x (by simp)
    have hcx : cur.e ≤ x.s := hgap x (by simp)
    have hgap2 : ∀ y ∈ t ++ a :: b :: l₂, x.e ≤ y.s := by
      intro y hy
      exact (List.pairwise_cons.mp (by simpa using hsort)).1 y hy
    have hsort2 : (t ++ a :: b :: l₂).Pairwise spanLe :=
      (List.pairwise_cons.mp (by simpa using hsort)).2
    have hpos2 : ∀ y ∈ t ++ a :: b :: l₂, y.s < y.e := by
      intro y hy
      exact hpos y (by simpa using Or.inr hy)
    simp only [List.cons_append, coalesceAux]
    split
    · exact coalesceAux_merges c hak hbk hbreak t ⟨cur.s, x.e, Kind.line⟩ l₂
        (show cur.s < x.e by omega) hgap2 hsort2 hpos2
    · have := coalesceAux_merges c hak hbk hbreak t x l₂ hx hgap2 hsort2 hpos2
      obtain ⟨sp, hsp, hcov⟩ := this
      exact ⟨sp, List.mem_cons_of_mem _ hsp, hcov⟩

/-- Backward direction: if the text between two adjacent spans is not
exactly one line break plus indentation (or one of them is not a line
comment), no coalesced span covers both. -/
theorem coalesceAux_no_merge (c : Content) {a b : Span}
    (hcond : ¬(a.kind = Kind.line ∧ b.kind = Kind.line ∧
      isOneBreak (slice c a.e b.s) = true)) :
    ∀ (l₁ : List Span) (cur : Span) (l₂ : List Span),
    cur.s < cur.e → (∀ x ∈ l₁ ++ a :: b :: l₂, cur.e ≤ x.s) →
    (l₁ ++ a :: b :: l₂).Pairwise spanLe →
    (∀ x ∈ l₁ ++ a :: b :: l₂, x.s < x.e) →
    ¬ mergedIn (coalesceAux c cur (l₁ ++ a :: b :: l₂)) a b
  | [], cur, l₂, hcur, hgap, hsort, hpos => by
    simp only [List.nil_append] at hgap hsort hpos ⊢
    have hcura : cur.e ≤ a.s := hgap a (List.mem_cons_self _ _)
    have hpa : a.s < a.e := hpos a (List.mem_cons_self _ _)
    have hab : a.e ≤ b.s := (List.pairwise_cons.mp hsort).1 b (List.mem_cons_self _ _)
    have hpb : b.s < b.e := hpos b (List.mem_cons_of_mem _ (List.mem_cons_self _ _))
    have hsort2 := (List.pairwise_cons.mp hsort).2
    have hbl : ∀ x ∈ l₂, b.e ≤ x.s := (List.pairwise_cons.mp hsort2).1
    have hsortl := (List.pairwise_cons.mp hsort2).2
    have hposl : ∀ x ∈ l₂, x.s < x.e := fun x hx =>
      hpos x (List.mem_cons_of_mem _ (List.mem_cons_of_mem _ hx))
    by_cases hmrg : cur.kind = Kind.line ∧ a.kind = Kind.line ∧
        isOneBreak (slice c cur.e a.s) = true
    · -- the run absorbed `a` (so `a.kind = line`); it cannot absorb `b`
      have hstep1 : coalesceAux c cur (a :: b :: l₂) =
          coalesceAux c ⟨cur.s, a.e, Kind.line⟩ (b :: l₂) := by
        simp only [coalesceAux]
        rw [if_pos hmrg]
      have hacond : ¬((⟨cur.s, a.e, Kind.line⟩ : Span).kind = Kind.line ∧
          b.kind = Kind.line ∧
          isOneBreak (slice c (⟨cur.s, a.e, Kind.line⟩ : Span).e b.s) = true) := by
        intro hc
        exact hcond ⟨hmrg.2.1, hc.2.1, hc.2.2⟩
      rw [hstep1]
      rintro ⟨sp, hsp, hc1, hc2⟩
      rcases @coalesceAux_cover_bound c b l₂ ⟨cur.s, a.e, Kind.line⟩
          hab hpb hbl hsortl hposl hacond sp hsp with
        hend | hstart
      · omega
      · omega
    · -- `a` starts a fresh run; it cannot absorb `b`
      have hstep1 : coalesceAux c cur (a :: b :: l₂) =
          cur :: coalesceAux c a (b :: l₂) := by
        simp only [coalesceAux]
        rw [if_neg hmrg]
      rw [hstep1]
      rintro ⟨sp, hsp, hc1, hc2⟩
      rcases List.mem_cons.mp hsp with rfl | hsp
      · omega
      · rcases @coalesceAux_cover_bound c b l₂ a hab hpb hbl hsortl hposl
            hcond sp hsp with hend | hstart
        · omega
        · omega
  | x :: t, cur, l₂, hcur, hgap, hsort, hpos => by
    have hx : x.s < x.e := hpos x (by simp)
    have hcx : cur.e ≤ x.s := hgap x (by simp)
    have hgap2 : ∀ y ∈ t ++ a :: b :: l₂, x.e ≤ y.s := by
      intro y hy
      exact (List.pairwise_cons.mp (by simpa using hsort)).1 y hy
    have hsort2 : (t ++ a :: b :: l₂).Pairwise spanLe :=
      (List.pairwise_cons.mp (by simpa using hsort)).2
    have hpos2 : ∀ y ∈ t ++ a :: b :: l₂, y.s < y.e := by
      intro y hy
      exact hpos y (by simpa using Or.inr hy)
    have hxa : x.e ≤ a.s := hgap2 a (by simp)
    have hpa : a.s < a.e := hpos2 a (by simp)
    have hab : a.e ≤ b.s := by
      have := List.pairwise_append.mp hsort2
      exact (List.pairwise_cons.mp this.2.1).1 b (List.mem_cons_self _ _)
    have hpb : b.s < b.e := hpos2 b (by simp)
    simp only [List.cons_append, coalesceAux]
    split
    · exact coalesceAux_no_merge c hcond t ⟨cur.s, x.e, Kind.line⟩ l₂
        (show cur.s < x.e by omega) hgap2 hsort2 hpos2
    · rintro ⟨sp, hsp, hc1, hc2⟩
      rcases List.mem_cons.mp hsp with rfl | hsp
      · omega
      · exact coalesceAux_no_merge c hcond t x l₂ hx hgap2 hsort2 hpos2
          ⟨sp, hsp, hc1, hc2⟩

/-- C8: two consecutive spans of the overlap-free list that are both line
comments are merged into one span by the detector if and only if the text
between them is exactly one line break (LF or CRLF) followed by optional
horizontal whitespace; in particular coalescing never bridges intervening
code or a blank line, and a block comment between two line comments makes
them non-consecutive, so it is never crossed either. -/
theorem C8_coalescing_iff (c : Content) (l₁ l₂ : List Span) (a b : Span)
    (hdecomp : nonOverlapSpans c = l₁ ++ a :: b :: l₂)
    (hak : a.kind = Kind.line) (hbk : b.kind = Kind.line) :
    mergedIn (collectSpans c) a b ↔ isOneBreak (slice c a.e b.s) = true := by
  have hsortL : (l₁ ++ a :: b :: l₂).Pairwise spanLe := by
    rw [← hdecomp]; exact nonOverlapSpans_sorted c
  have hposL : ∀ x ∈ l₁ ++ a :: b :: l₂, x.s < x.e := by
    intro x hx
    exact (nonOverlapSpans_valid (c := c) (by rw [hdecomp]; exact hx)).1
  have hcoll : collectSpans c = coalesce c (l₁ ++ a :: b :: l₂) := by
    rw [collectSpans, hdecomp]
  have hpa : a.s < a.e := hposL a (by simp)
  have hpb : b.s < b.e := hposL b (by simp)
  have hsplit := List.pairwise_append.mp hsortL
  have hab : a.e ≤ b.s := (List.pairwise_cons.mp hsplit.2.1).1 b (by simp)
  have hbl : ∀ x ∈ l₂, b.e ≤ x.s :=
    (List.pairwise_cons.mp (List.pairwise_cons.mp hsplit.2.1).2).1
  have hsortl : l₂.Pairwise spanLe :=
    (List.pairwise_cons.mp (List.pairwise_cons.mp hsplit.2.1).2).2
  have hposl : ∀ x ∈ l₂, x.s < x.e := by
    intro x hx
    exact hposL x (by simp [hx])
  constructor
  · intro hm
    by_contra hnb
    have hcond : ¬(a.kind = Kind.line ∧ b.kind = Kind.line ∧
        isOneBreak (slice c a.e b.s) = true) := fun hc => hnb hc.2.2
    rw [hcoll] at hm
    cases l₁ with
    | nil =>
      simp only [List.nil_append, coalesce] at hm
      obtain ⟨sp, hsp, hc1, hc2⟩ := hm
      rcases @coalesceAux_cover_bound c b l₂ a hab hpb hbl hsortl hposl
          hcond sp hsp with hend | hstart
      · omega
      · omega
    | cons h t =>
      simp only [List.cons_append, coalesce] at hm
      have hh : h.s < h.e := hposL h (by simp)
      have hgap2 : ∀ y ∈ t ++ a :: b :: l₂, h.e ≤ y.s := by
        intro y hy
        exact (List.pairwise_cons.mp (by simpa using hsortL)).1 y hy
      have hsort2 : (t ++ a :: b :: l₂).Pairwise spanLe :=
        (List.pairwise_cons.mp (by simpa using hsortL)).2
      have hpos2 : ∀ y ∈ t ++ a :: b :: l₂, y.s < y.e := by
        intro y hy
        exact hposL y (by simpa using Or.inr hy)
      exact coalesceAux_no_merge c hcond t h l₂ hh hgap2 hsort2 hpos2 hm
  · intro hbreak
    rw [hcoll]
    cases l₁ with
    | nil =>
      simp only [List.nil_append, coalesce]
      have hstep : coalesceAux c a (b :: l₂) =
          coalesceAux c ⟨a.s, b.e, Kind.line⟩ l₂ := by
        simp [coalesceAux, hak, hbk, hbreak]
      rw [hstep]
      obtain ⟨e₁, k, out, heq, hle⟩ := coalesceAux_head c l₂
        ⟨a.s, b.e, Kind.line⟩ hbl hsortl hposl
      rw [heq]
      have hle' : b.e ≤ e₁ := hle
      exact ⟨⟨a.s, e₁, k⟩, List.mem_cons_self _ _,
        show a.s ≤ a.s from Nat.le_refl _, hle'⟩
    | cons h t =>
      simp only [List.cons_append, coalesce]
      have hh : h.s < h.e := hposL h (by simp)
      have hgap2 : ∀ y ∈ t ++ a :: b :: l₂, h.e ≤ y.s := by
        intro y hy
        exact (List.pairwise_cons.mp (by simpa using hsortL)).1 y hy
      have hsort2 : (t ++ a :: b :: l₂).Pairwise spanLe :=
        (List.pairwise_cons.mp (by simpa using hsortL)).2
      have hpos2 : ∀ y ∈ t ++ a :: b :: l₂, y.s < y.e := by
        intro y hy
        exact hposL y (by simpa using Or.inr hy)
      exact coalesceAux_merges c hak hbk hbreak t h l₂ hh hgap2 hsort2 hpos2

/-- C8 witness: the two stacked line comments of
`"// a\n// b\nx\n"` are adjacent in the overlap-free list, separated by
exactly one line break, and indeed merged. -/
theorem C8_coalescing_iff_witness :
    mergedIn (collectSpans ("// a\n// b\nx\n".toList))
        ⟨0, 4, Kind.line⟩ ⟨5, 9, Kind.line⟩ ↔
      isOneBreak (slice ("// a\n// b\nx\n".toList) 4 5) = true :=
  C8_coalescing_iff ("// a\n// b\nx\n".toList) [] []
    ⟨0, 4, Kind.line⟩ ⟨5, 9, Kind.line⟩ (by decide) rfl rfl

/-! ## Properties of the decision map -/

theorem dlookup_dinsert (m : DMap) (k k' : Content) (v : Bool) :
    dlookup (dinsert m k v) k' = if k = k' then some v else dlookup m k' := by
  simp [dinsert, dlookup]

theorem dinsert_pres_isSome {m : DMap} {k : Content} (k' : Content) (v : Bool)
    (h : (dlookup m k).isSome) : (dlookup (dinsert m k' v) k).isSome := by
  rw [dlookup_dinsert]
  split <;> simp [h]

theorem dsetdefault_self_isSome (m : DMap) (k : Content) (v : Bool) :
    (dlookup (dsetdefault m k v) k).isSome := by
  unfold dsetdefault
  cases h : dlookup m k with
  | some _ => simp [h]
  | none => simp [dlookup_dinsert]

theorem dsetdefault_pres {m : DMap} {k : Content} {v : Bool} (k' : Content)
    (v' : Bool) (h : dlookup m k = some v) :
    dlookup (dsetdefault m k' v') k = some v := by
  unfold dsetdefault
  cases h' : dlookup m k' with
  | some _ => exact h
  | none =>
    rw [dlookup_dinsert]
    split
    next heq => rw [heq] at h'; rw [h'] at h; cases h
    next => exact h

theorem dsetdefault_lookup {m : DMap} {k k' : Content} {v : Bool} {w : Bool}
    (h : dlookup (dsetdefault m k' v) k = some w) :
    dlookup m k = some w ∨ (k = k' ∧ w = v ∧ dlookup m k = none) := by
  unfold dsetdefault at h
  cases h' : dlookup m k' with
  | some _ => rw [h'] at h; exact Or.inl h
  | none =>
    rw [h', dlookup_dinsert] at h
    split at h
    next heq =>
      cases h
      exact Or.inr ⟨heq.symm, rfl, heq ▸ h'⟩
    next => exact Or.inl h

theorem foldl_ins_pres (ps : List (Content × Bool)) : ∀ (m : DMap) (k : Content),
    (dlookup m k).isSome →
      (dlookup (ps.foldl (fun m p => dinsert m p.1 p.2) m) k).isSome := by
  induction ps with
  | nil => intro m k h; exact h
  | cons p t ih =>
    intro m k h
    exact ih _ _ (dinsert_pres_isSome p.1 p.2 h)

theorem foldl_ins_mem (ps : List (Content × Bool)) : ∀ (m : DMap) (k : Content),
    (∃ p ∈ ps, p.1 = k) →
      (dlookup (ps.foldl (fun m p => dinsert m p.1 p.2) m) k).isSome := by
  induction ps with
  | nil => rintro m k ⟨p, hp, _⟩; cases hp
  | cons p t ih =>
    rintro m k ⟨q, hq, rfl⟩
    rcases List.mem_cons.mp hq with rfl | hq
    · exact foldl_ins_pres t _ _ (by rw [dlookup_dinsert]; simp)
    · exact ih _ _ ⟨q, hq, rfl⟩

theorem foldl_ins_lookup (ps : List (Content × Bool)) : ∀ (m : DMap)
    (k : Content) (v : Bool),
    dlookup (ps.foldl (fun m p => dinsert m p.1 p.2) m) k = some v →
      dlookup m k = some v ∨ (k, v) ∈ ps ∨ ∃ p ∈ ps, p.1 = k := by
  induction ps with
  | nil => intro m k v h; exact Or.inl h
  | cons p t ih =>
    intro m k v h
    rcases ih _ _ _ h with h' | h' | ⟨q, hq, hqk⟩
    · rw [dlookup_dinsert] at h'
      split at h'
      next heq => exact Or.inr (Or.inr ⟨p, List.mem_cons_self _ _, heq⟩)
      next => exact Or.inl h'
    · exact Or.inr (Or.inl (List.mem_cons_of_mem _ h'))
    · exact Or.inr (Or.inr ⟨q, List.mem_cons_of_mem _ hq, hqk⟩)

theorem replayLog_append (A B : List (Content × Bool)) :
    replayLog (A ++ B) = B.foldl (fun m p => dinsert m p.1 p.2) (replayLog A) := by
  unfold replayLog
  rw [List.foldl_append]

/-! ## Properties of the rewriting pipeline -/

/-- Everything `_apply_decision_and_emit` does: it requires a cached
decision for the record's fingerprint, appends exactly one comment record
(whose snippet is the closure's current `ctx`), and touches no other
state besides `outParts` and `idx`. -/
theorem emit_spec {c : Content} {fn : String} {st st' : PState} {r : PendRec}
    (h : applyDecisionAndEmit c fn st r = some st') :
    st'.decisions = st.decisions ∧ st'.pending = st.pending ∧
    st'.curCtx = st.curCtx ∧ st'.appendLog = st.appendLog ∧
    st'.oracleCalls = st.oracleCalls ∧ st'.queried = st.queried ∧
    ∃ keep, dlookup st.decisions r.sha = some keep ∧
      st'.comments = st.comments ++ [⟨fn, r.sha, r.comment, keep, st.curCtx⟩] := by
  unfold applyDecisionAndEmit at h
  cases hl : dlookup st.decisions r.sha with
  | none => rw [hl] at h; cases h
  | some keep =>
    rw [hl] at h
    cases keep
    · obtain rfl := Option.some_injective _ h
      exact ⟨rfl, rfl, rfl, rfl, rfl, rfl, false, rfl, rfl⟩
    · obtain rfl := Option.some_injective _ h
      exact ⟨rfl, rfl, rfl, rfl, rfl, rfl, true, rfl, rfl⟩

theorem emit_isSome {c : Content} {fn : String} {st : PState} {r : PendRec}
    (h : (dlookup st.decisions r.sha).isSome) :
    ∃ st', applyDecisionAndEmit c fn st r = some st' := by
  unfold applyDecisionAndEmit
  rcases Option.isSome_iff_exists.mp h with ⟨keep, hk⟩
  rw [hk]
  cases keep <;> exact ⟨_, rfl⟩

theorem applyAll_ex (c : Content) (fn : String) : ∀ (l : List PendRec)
    (st : PState), ∃ st', applyAll c fn st l = some st' := by
  intro l
  induction l with
  | nil => intro st; exact ⟨st, rfl⟩
  | cons r t ih =>
    intro st
    obtain ⟨st2, h2⟩ := @emit_isSome c fn
      { st with decisions := dsetdefault st.decisions r.sha (defaultKeep r.comment) }
      r (dsetdefault_self_isSome _ _ _)
    obtain ⟨st', h'⟩ := ih st2
    exact ⟨st', by simp only [applyAll, h2, h']⟩

theorem applyAll_pres (c : Content) (fn : String) : ∀ (l : List PendRec)
    (st st' : PState), applyAll c fn st l = some st' →
    ∀ k v, dlookup st.decisions k = some v → dlookup st'.decisions k = some v := by
  intro l
  induction l with
  | nil => intro st st' h k v hk; cases h; exact hk
  | cons r t ih =>
    intro st st' h k v hk
    simp only [applyAll] at h
    cases h2 : applyDecisionAndEmit c fn
        { st with decisions := dsetdefault st.decisions r.sha (defaultKeep r.comment) } r with
    | none => rw [h2] at h; cases h
    | some st2 =>
      rw [h2] at h
      have hdec := (emit_spec h2).1
      refine ih st2 st' h k v ?_
      rw [hdec]
      exact dsetdefault_pres _ _ hk

theorem applyAll_instr (c : Content) (fn : String) : ∀ (l : List PendRec)
    (st st' : PState), applyAll c fn st l = some st' →
    st'.pending = st.pending ∧ st'.curCtx = st.curCtx ∧
    st'.appendLog = st.appendLog ∧ st'.oracleCalls = st.oracleCalls ∧
    st'.queried = st.queried := by
  intro l
  induction l with
  | nil => intro st st' h; cases h; exact ⟨rfl, rfl, rfl, rfl, rfl⟩
  | cons r t ih =>
    intro st st' h
    simp only [applyAll] at h
    cases h2 : applyDecisionAndEmit c fn
        { st with decisions := dsetdefault st.decisions r.sha (defaultKeep r.comment) } r with
    | none => rw [h2] at h; cases h
    | some st2 =>
      rw [h2] at h
      obtain ⟨e1, e2, e3, e4, e5⟩ := ih st2 st' h
      obtain ⟨_, f2, f3, f4, f5, f6, _⟩ := emit_spec h2
      exact ⟨e1.trans f2, e2.trans f3, e3.trans f4, e4.trans f5, e5.trans f6⟩

theorem applyAll_comments (c : Content) (fn : String) : ∀ (l : List PendRec)
    (st st' : PState), applyAll c fn st l = some st' →
    (∀ rec ∈ st.comments, rec ∈ st'.comments) ∧
    (∀ r ∈ l, ∃ rec ∈ st'.comments, rec.sha = r.sha) := by
  intro l
  induction l with
  | nil =>
    intro st st' h; cases h
    exact ⟨fun rec hr => hr, by simp⟩
  | cons r t ih =>
    intro st st' h
    simp only [applyAll] at h
    cases h2 : applyDecisionAndEmit c fn
        { st with decisions := dsetdefault st.decisions r.sha (defaultKeep r.comment) } r with
    | none => rw [h2] at h; cases h
    | some st2 =>
      rw [h2] at h
      obtain ⟨ihmono, ihall⟩ := ih st2 st' h
      obtain ⟨_, _, _, _, _, _, keep, _, hcom⟩ := emit_spec h2
      have hmem : (⟨fn, r.sha, r.comment, keep, st.curCtx⟩ : CRecord) ∈ st2.comments := by
        rw [hcom]; simp
      refine ⟨?_, ?_⟩
      · intro rec hr
        exact ihmono rec (by rw [hcom]; exact List.mem_append_left _ hr)
      · intro r' hr'
        rcases List.mem_cons.mp hr' with rfl | hr'
        · exact ⟨_, ihmono _ hmem, rfl⟩
        · exact ihall r' hr'

theorem flushPending_ex (c : Content) (fn : String) (oracle : Oracle)
    (st : PState) : ∃ st', flushPending c fn oracle st = some st' := by
  unfold flushPending
  split
  · exact ⟨st, rfl⟩
  · obtain ⟨st2, h2⟩ := applyAll_ex c fn _ _
    rw [h2]
    exact ⟨_, rfl⟩

theorem foldl_ins_pres_val (ps : List (Content × Bool)) : ∀ (m : DMap)
    (k : Content) (v : Bool), dlookup m k = some v → (∀ p ∈ ps, p.1 ≠ k) →
      dlookup (ps.foldl (fun m p => dinsert m p.1 p.2) m) k = some v := by
  induction ps with
  | nil => intro m k v h _; exact h
  | cons p t ih =>
    intro m k v h hne
    refine ih _ _ _ ?_ (fun q hq => hne q (List.mem_cons_of_mem _ hq))
    rw [dlookup_dinsert]
    split
    next heq => exact absurd heq (hne p (List.mem_cons_self _ _))
    next => exact h

/-- Keys inserted by the oracle-query phase come from `to_query`, i.e.
from fingerprints absent from the decisions map. -/
theorem newEntries_keys {fn : String} {oracle : Oracle} {st : PState}
    {p : Content × Bool} (hp : p ∈ newEntries fn oracle st) :
    dlookup st.decisions p.1 = none := by
  unfold newEntries at hp
  rcases List.mem_map.mp hp with ⟨q, hq, rfl⟩
  have hq1 : q.1 ∈ toQueryOf st := List.of_mem_zip hq |>.1
  have := List.of_mem_filter hq1
  simpa [Option.isNone_iff_eq_none] using this

/-- The query phase preserves every cached decision with its value. -/
theorem flushQueryState_pres {fn : String} {oracle : Oracle} {st : PState} :
    ∀ k v, dlookup st.decisions k = some v →
      dlookup (flushQueryState fn oracle st).decisions k = some v := by
  intro k v h
  unfold flushQueryState
  split
  · exact h
  · refine foldl_ins_pres_val _ _ _ _ h ?_
    intro p hp hpk
    have := newEntries_keys hp
    rw [hpk, h] at this
    cases this

theorem flushQueryState_frame (fn : String) (oracle : Oracle) (st : PState) :
    (flushQueryState fn oracle st).pending = st.pending ∧
    (flushQueryState fn oracle st).comments = st.comments ∧
    (flushQueryState fn oracle st).idx = st.idx ∧
    (flushQueryState fn oracle st).curCtx = st.curCtx ∧
    (flushQueryState fn oracle st).outParts = st.outParts := by
  unfold flushQueryState
  split <;> exact ⟨rfl, rfl, rfl, rfl, rfl⟩

/-- Flushing preserves cached decisions (existing fingerprints keep their
values: the oracle is consulted only for fingerprints absent from the
decisions map, and `setdefault` never overwrites). -/
theorem flushPending_pres {c : Content} {fn : String} {oracle : Oracle}
    {st st' : PState} (h : flushPending c fn oracle st = some st') :
    ∀ k v, dlookup st.decisions k = some v → dlookup st'.decisions k = some v := by
  unfold flushPending at h
  split at h
  next => cases h; intro k v hk; exact hk
  next =>
    cases h2 : applyAll c fn (flushQueryState fn oracle st)
        (flushQueryState fn oracle st).pending with
    | none => rw [h2] at h; cases h
    | some st2 =>
      rw [h2] at h
      cases h
      intro k v hk
      exact applyAll_pres c fn _ _ _ h2 k v (flushQueryState_pres k v hk)

/-- Flushing succeeds, emits every pending record, keeps previously
emitted records, and clears the buffer. -/
theorem flushPending_spec (c : Content) (fn : String) (oracle : Oracle)
    (st : PState) : ∃ st', flushPending c fn oracle st = some st' ∧
      st'.pending = [] ∧
      (∀ rec ∈ st.comments, rec ∈ st'.comments) ∧
      (∀ r ∈ st.pending, ∃ rec ∈ st'.comments, rec.sha = r.sha) := by
  unfold flushPending
  split
  next hemp =>
    exact ⟨st, rfl, hemp, fun rec hr => hr, by simp [hemp]⟩
  next =>
    obtain ⟨st2, h2⟩ := applyAll_ex c fn (flushQueryState fn oracle st).pending
      (flushQueryState fn oracle st)
    obtain ⟨hcmono, hcall⟩ := applyAll_comments c fn _ _ _ h2
    obtain ⟨hpend, hcom, _, _, _⟩ := flushQueryState_frame fn oracle st
    refine ⟨{ st2 with pending := [] }, by rw [h2], rfl, ?_, ?_⟩
    · intro rec hr
      exact hcmono rec (hcom ▸ hr)
    · intro r hr
      exact hcall r (hpend ▸ hr)

theorem stepSpan_ex (c : Content) (fn : String) (oracle : Oracle)
    (bufSize ctxMax : Nat) (st : PState) (sp : Span) (nextS : Option Nat) :
    ∃ st', stepSpan c fn oracle bufSize ctxMax st sp nextS = some st' := by
  simp only [stepSpan]
  split
  · exact ⟨st, rfl⟩
  · split
    next hcache =>
      obtain ⟨stf, hf⟩ := flushPending_ex c fn oracle _
      rw [hf]
      rcases Option.isSome_iff_exists.mp hcache with ⟨v, hv⟩
      exact emit_isSome (Option.isSome_iff_exists.mpr ⟨v, flushPending_pres hf _ _ hv⟩)
    next =>
      split
      · exact flushPending_ex c fn oracle _
      · exact ⟨_, rfl⟩

theorem runSpans_ex (c : Content) (fn : String) (oracle : Oracle)
    (bufSize ctxMax : Nat) : ∀ (spans : List Span) (st : PState),
    ∃ st', runSpans c fn oracle bufSize ctxMax st spans = some st' := by
  intro spans
  induction spans with
  | nil => intro st; exact ⟨st, rfl⟩
  | cons sp rest ih =>
    intro st
    obtain ⟨st1, h1⟩ := stepSpan_ex c fn oracle bufSize ctxMax st sp
      ((rest.head?).map Span.s)
    obtain ⟨st', h'⟩ := ih st1
    exact ⟨st', by simp only [runSpans, h1, h']⟩

/-- C10: extraction is total — whenever a `CommentRecord` is created, the
in-memory decisions map contains that span's fingerprint (a record is
created only on a cache hit, or during a flush after `setdefault` has
given every pending fingerprint a value), so the `decisions[sha]` lookup
modelled by the `Option` in `applyDecisionAndEmit` never fails and the
pipeline always returns a result. -/
theorem C10_lookup_total (fn : String) (c : Content)
    (log : List (Content × Bool)) (oracle : Oracle) (bufSize ctxMax : Nat) :
    (extractStripCryComments fn c log oracle bufSize ctxMax).isSome = true := by
  obtain ⟨st1, h1⟩ := runSpans_ex c fn oracle bufSize ctxMax (collectSpans c)
    ⟨replayLog log, 0, [], [], [], [], [], 0, []⟩
  obtain ⟨st2, h2⟩ := flushPending_ex c fn oracle st1
  simp only [extractStripCryComments, h1, h2, Option.isSome_some]

/-! ## Positional bounds: a drop never consumes past the next span -/

theorem takeUntilNl_get : ∀ (l : Content),
    takeUntilNl l < l.length → l.get? (takeUntilNl l) = some '\n'
  | [], h => absurd h (by simp [takeUntilNl])
  | ch :: t, h => by
    by_cases hch : ch = '\n'
    · simp [takeUntilNl, hch]
    · have h' : takeUntilNl t < t.length := by
        simp only [takeUntilNl, if_neg hch, List.length_cons] at h
        omega
      have := takeUntilNl_get t h'
      simp only [takeUntilNl, if_neg hch]
      rw [show 1 + takeUntilNl t = takeUntilNl t + 1 by omega]
      simpa using this

theorem nlPrefixLen_get : ∀ (l : Content) (i : Nat),
    i < nlPrefixLen l → l.get? i = some '\n'
  | [], i, h => absurd h (by simp [nlPrefixLen])
  | ch :: t, i, h => by
    by_cases hch : ch = '\n'
    · cases i with
      | zero => simp [hch]
      | succ j =>
        have h' : j < nlPrefixLen t := by
          simp only [nlPrefixLen, if_pos hch] at h
          omega
        simpa using nlPrefixLen_get t j h'
    · simp only [nlPrefixLen, if_neg hch] at h
      omega

theorem slice_get {c : Content} {a b i : Nat} (h : i < b - a) :
    (slice c a b).get? i = c.get? (a + i) := by
  unfold slice
  rw [List.get?_take h, List.get?_drop]

theorem isBlank_get {l : Content} {i : Nat} {ch : Char}
    (hb : isBlank l = true) (h : l.get? i = some ch) : pyWS ch = true := by
  unfold isBlank at hb
  rw [List.all_eq_true] at hb
  exact hb ch (List.get?_mem h)

/-- Dropping a standalone comment consumes its line's trailing newline,
but never reaches the start of a following comment (which begins with a
non-whitespace `'/'`). -/
theorem extendEnd_le {c : Content} {s e n : Nat} (he : e ≤ n)
    (hn : c.get? n = some '/') : extendEnd c s e ≤ n := by
  have hnlen : n < c.length := by
    by_contra hge
    rw [List.get?_eq_none.mpr (by omega)] at hn
    cases hn
  simp only [extendEnd]
  split
  next hblank =>
    have heolle : findNlFrom c e ≤ c.length := by
      have := takeUntilNl_le (c.drop e)
      simp only [List.length_drop] at this
      unfold findNlFrom
      omega
    have heoln : findNlFrom c e ≤ n := by
      by_contra hlt
      push_neg at hlt
      have hi : n - e < findNlFrom c e - e := by omega
      have hsl : (slice c e (findNlFrom c e)).get? (n - e) = c.get? (e + (n - e)) :=
        slice_get hi
      rw [show e + (n - e) = n by omega, hn] at hsl
      have hws := isBlank_get hblank.2 hsl
      cases hws
    split
    next hcondn =>
      have hne : findNlFrom c e ≠ n := by
        intro heq
        rw [heq, hn] at hcondn
        cases hcondn.2
      omega
    next => exact heoln
  next => exact he

theorem skipNewlines_le {c : Content} {p n : Nat} (hpn : p ≤ n)
    (hn : c.get? n = some '/') : skipNewlines c p ≤ n := by
  unfold skipNewlines
  by_contra hgt
  push_neg at hgt
  have hi : n - p < nlPrefixLen (c.drop p) := by omega
  have hget := nlPrefixLen_get (c.drop p) (n - p) hi
  rw [List.get?_drop, show p + (n - p) = n by omega, hn] at hget
  cases hget

theorem emit_idx_le {c : Content} {fn : String} {st st' : PState} {r : PendRec}
    {n : Nat} (h : applyDecisionAndEmit c fn st r = some st')
    (hre : r.e ≤ n) (hn : c.get? n = some '/') : st'.idx ≤ n := by
  unfold applyDecisionAndEmit at h
  cases hl : dlookup st.decisions r.sha with
  | none => rw [hl] at h; cases h
  | some keep =>
    rw [hl] at h
    cases keep
    · obtain rfl := Option.some_injective _ h
      exact skipNewlines_le (extendEnd_le hre hn) hn
    · obtain rfl := Option.some_injective _ h
      exact hre

theorem applyAll_idx_le (c : Content) (fn : String) : ∀ (l : List PendRec)
    (st st' : PState) (n : Nat), applyAll c fn st l = some st' → st.idx ≤ n →
    (∀ r ∈ l, r.e ≤ n) → c.get? n = some '/' → st'.idx ≤ n := by
  intro l
  induction l with
  | nil => intro st st' n h hidx _ _; cases h; exact hidx
  | cons r t ih =>
    intro st st' n h hidx hre hn
    simp only [applyAll] at h
    cases h2 : applyDecisionAndEmit c fn
        { st with decisions := dsetdefault st.decisions r.sha (defaultKeep r.comment) } r with
    | none => rw [h2] at h; cases h
    | some st2 =>
      rw [h2] at h
      exact ih st2 st' n h
        (emit_idx_le h2 (hre r (List.mem_cons_self _ _)) hn)
        (fun q hq => hre q (List.mem_cons_of_mem _ hq)) hn

theorem flush_idx_le {c : Content} {fn : String} {oracle : Oracle}
    {st st' : PState} {n : Nat} (h : flushPending c fn oracle st = some st')
    (hidx : st.idx ≤ n) (hpend : ∀ r ∈ st.pending, r.e ≤ n)
    (hn : c.get? n = some '/') : st'.idx ≤ n := by
  unfold flushPending at h
  split at h
  next => cases h; exact hidx
  next =>
    cases h2 : applyAll c fn (flushQueryState fn oracle st)
        (flushQueryState fn oracle st).pending with
    | none => rw [h2] at h; cases h
    | some st2 =>
      rw [h2] at h
      cases h
      have hfr := flushQueryState_frame fn oracle st
      have := applyAll_idx_le c fn _ _ st2 n h2 (by rw [hfr.2.2.1]; exact hidx)
        (by rw [hfr.1]; exact hpend) hn
      exact this

/-! ## Every span is resolved into a comment record -/

theorem flushPending_mono {c : Content} {fn : String} {oracle : Oracle}
    {st st' : PState} (h : flushPending c fn oracle st = some st') :
    (∀ rec ∈ st.comments, rec ∈ st'.comments) ∧ st'.pending = [] ∧
    (∀ r ∈ st.pending, ∃ rec ∈ st'.comments, rec.sha = r.sha) := by
  obtain ⟨st'', hs, hp, hcm, hpe⟩ := flushPending_spec c fn oracle st
  rw [h] at hs
  obtain rfl := Option.some_injective _ hs
  exact ⟨hcm, hp, hpe⟩

theorem stepSpan_mono {c : Content} {fn : String} {oracle : Oracle}
    {bufSize ctxMax : Nat} {st st' : PState} {sp : Span} {nextS : Option Nat}
    (h : stepSpan c fn oracle bufSize ctxMax st sp nextS = some st') :
    ∀ rec ∈ st.comments, rec ∈ st'.comments := by
  simp only [stepSpan] at h
  split at h
  · cases h; exact fun rec hr => hr
  · split at h
    · split at h
      next => cases h
      next stf hf =>
        intro rec hr
        obtain ⟨_, _, _, _, _, _, keep, _, hcom⟩ := emit_spec h
        rw [hcom]
        exact List.mem_append_left _ ((flushPending_mono hf).1 rec hr)
    · split at h
      · exact fun rec hr => (flushPending_mono h).1 rec hr
      · cases h; exact fun rec hr => hr

theorem runSpans_mono {c : Content} {fn : String} {oracle : Oracle}
    {bufSize ctxMax : Nat} : ∀ (spans : List Span) (st st' : PState),
    runSpans c fn oracle bufSize ctxMax st spans = some st' →
    ∀ rec ∈ st.comments, rec ∈ st'.comments := by
  intro spans
  induction spans with
  | nil => intro st st' h; cases h; exact fun rec hr => hr
  | cons sp rest ih =>
    intro st st' h
    simp only [runSpans] at h
    cases h1 : stepSpan c fn oracle bufSize ctxMax st sp
        ((rest.head?).map Span.s) with
    | none => rw [h1] at h; cases h
    | some st1 =>
      rw [h1] at h
      exact fun rec hr => ih st1 st' h rec (stepSpan_mono h1 rec hr)

/-- Every span handed to the loop is eventually resolved: when the loop
finishes, each span's fingerprint is carried by an emitted record or by a
still-buffered pending item.  The positional hypotheses (spans sorted,
starting at `'/'`, ahead of the cursor and of all buffered items) are what
rules out the `s < idx` skip. -/
theorem runSpans_covers (c : Content) (fn : String) (oracle : Oracle)
    (bufSize ctxMax : Nat) : ∀ (spans : List Span) (st st' : PState),
    runSpans c fn oracle bufSize ctxMax st spans = some st' →
    spans.Pairwise spanLe →
    (∀ sp ∈ spans, sp.s < sp.e ∧ c.get? sp.s = some '/') →
    (∀ sp ∈ spans, st.idx ≤ sp.s) →
    (∀ r ∈ st.pending, ∀ sp ∈ spans, r.e ≤ sp.s) →
    (∀ sp ∈ spans, (∃ rec ∈ st'.comments, rec.sha = slice c sp.s sp.e) ∨
      ∃ r ∈ st'.pending, r.sha = slice c sp.s sp.e) ∧
    (∀ r0 ∈ st.pending, (∃ rec ∈ st'.comments, rec.sha = r0.sha) ∨
      ∃ r ∈ st'.pending, r.sha = r0.sha) := by
  intro spans
  induction spans with
  | nil =>
    intro st st' h _ _ _ _
    cases h
    exact ⟨by simp, fun r0 hr0 => Or.inr ⟨r0, hr0, rfl⟩⟩
  | cons sp rest ih =>
    intro st st' h hsort hvalid hidx hpb
    have hspv := hvalid sp (List.mem_cons_self _ _)
    have hspidx := hidx sp (List.mem_cons_self _ _)
    have hrestgap : ∀ sp' ∈ rest, sp.e ≤ sp'.s := (List.pairwise_cons.mp hsort).1
    have hrestsort := (List.pairwise_cons.mp hsort).2
    have hrestvalid : ∀ sp' ∈ rest, sp'.s < sp'.e ∧ c.get? sp'.s = some '/' :=
      fun sp' hsp' => hvalid sp' (List.mem_cons_of_mem _ hsp')
    simp only [runSpans] at h
    cases h1 : stepSpan c fn oracle bufSize ctxMax st sp
        ((rest.head?).map Span.s) with
    | none => rw [h1] at h; cases h
    | some st1 =>
      rw [h1] at h
      simp only [stepSpan] at h1
      split at h1
      next hskip => omega
      next =>
        split at h1
        next hcache =>
          -- cache hit: flush the buffer, then emit this span immediately
          split at h1
          next => cases h1
          next stf hf =>
            obtain ⟨hfcm, hfp, hfpe⟩ := flushPending_mono hf
            obtain ⟨_, hp1, _, _, _, _, keep, _, hcom⟩ := emit_spec h1
            have hrecmem : (⟨fn, slice c sp.s sp.e, slice c sp.s sp.e, keep,
                stf.curCtx⟩ : CRecord) ∈ st1.comments := by
              rw [hcom]; simp
            have hidx1 : ∀ sp' ∈ rest, st1.idx ≤ sp'.s := fun sp' hsp' =>
              emit_idx_le h1 (hrestgap sp' hsp') (hrestvalid sp' hsp').2
            have hpend1 : ∀ r ∈ st1.pending, ∀ sp' ∈ rest, r.e ≤ sp'.s := by
              rw [hp1, hfp]; simp
            obtain ⟨ihp1, ihp2⟩ := ih st1 st' h hrestsort hrestvalid hidx1 hpend1
            refine ⟨?_, ?_⟩
            · intro sp' hsp'
              rcases List.mem_cons.mp hsp' with rfl | hsp'
              · exact Or.inl ⟨_, runSpans_mono rest st1 st' h _ hrecmem, rfl⟩
              · exact ihp1 sp' hsp'
            · intro r0 hr0
              obtain ⟨rec, hrec, hsha⟩ := hfpe r0 hr0
              refine Or.inl ⟨rec, runSpans_mono rest st1 st' h rec ?_, hsha⟩
              rw [hcom]
              exact List.mem_append_left _ hrec
        next =>
          -- uncached: buffer the span, possibly flushing at capacity
          split at h1
          next hcap =>
            obtain ⟨hfcm, hfp, hfpe⟩ := flushPending_mono h1
            have hidx1 : ∀ sp' ∈ rest, st1.idx ≤ sp'.s := fun sp' hsp' =>
              flush_idx_le h1 (le_trans hspidx (le_of_lt hspv.1) |>.trans
                (hrestgap sp' hsp') |> fun _ => le_trans hspidx
                  ((le_of_lt hspv.1).trans (hrestgap sp' hsp')))
                (by
                  intro r hr
                  rcases List.mem_append.mp hr with hr | hr
                  · exact hpb r hr sp' (List.mem_cons_of_mem _ hsp')
                  · rw [List.mem_singleton] at hr
                    subst hr
                    exact hrestgap sp' hsp')
                (hrestvalid sp' hsp').2
            have hpend1 : ∀ r ∈ st1.pending, ∀ sp' ∈ rest, r.e ≤ sp'.s := by
              rw [hfp]; simp
            obtain ⟨ihp1, ihp2⟩ := ih st1 st' h hrestsort hrestvalid hidx1 hpend1
            have hcur : ∃ rec ∈ st1.comments, rec.sha = slice c sp.s sp.e := by
              obtain ⟨rec, hrec, hsha⟩ := hfpe
                ⟨sp.s, sp.e, slice c sp.s sp.e, slice c sp.s sp.e,
                  makeCodeContext c sp.e ((rest.head?).map Span.s) ctxMax⟩
                (List.mem_append_right _ (List.mem_singleton.mpr rfl))
              exact ⟨rec, hrec, hsha⟩
            refine ⟨?_, ?_⟩
            · intro sp' hsp'
              rcases List.mem_cons.mp hsp' with rfl | hsp'
              · obtain ⟨rec, hrec, hsha⟩ := hcur
                exact Or.inl ⟨rec, runSpans_mono rest st1 st' h rec hrec, hsha⟩
              · exact ihp1 sp' hsp'
            · intro r0 hr0
              obtain ⟨rec, hrec, hsha⟩ := hfpe r0 (List.mem_append_left _ hr0)
              exact Or.inl ⟨rec, runSpans_mono rest st1 st' h rec hrec, hsha⟩
          next =>
            cases h1
            have hidx1 : ∀ sp' ∈ rest,
                ({ st with
                  curCtx := makeCodeContext c sp.e ((rest.head?).map Span.s) ctxMax,
                  pending := st.pending ++
                    [⟨sp.s, sp.e, slice c sp.s sp.e, slice c sp.s sp.e,
                      makeCodeContext c sp.e ((rest.head?).map Span.s) ctxMax⟩] } :
                    PState).idx ≤ sp'.s := by
              intro sp' hsp'
              exact le_trans hspidx ((le_of_lt hspv.1).trans (hrestgap sp' hsp'))
            have hpend1 : ∀ r ∈ st.pending ++
                [⟨sp.s, sp.e, slice c sp.s sp.e, slice c sp.s sp.e,
                  makeCodeContext c sp.e ((rest.head?).map Span.s) ctxMax⟩],
                ∀ sp' ∈ rest, r.e ≤ sp'.s := by
              intro r hr sp' hsp'
              rcases List.mem_append.mp hr with hr | hr
              · exact hpb r hr sp' (List.mem_cons_of_mem _ hsp')
              · rw [List.mem_singleton] at hr
                subst hr
                exact hrestgap sp' hsp'
            obtain ⟨ihp1, ihp2⟩ := ih _ st' h hrestsort hrestvalid hidx1 hpend1
            refine ⟨?_, ?_⟩
            · intro sp' hsp'
              rcases List.mem_cons.mp hsp' with rfl | hsp'
              · exact ihp2 _ (List.mem_append_right _ (List.mem_singleton.mpr rfl))
              · exact ihp1 sp' hsp'
            · intro r0 hr0
              exact ihp2 r0 (List.mem_append_left _ hr0)

/-! ## Runs with a failing oracle -/

theorem failInv_emit {D0 : DMap} {c : Content} {fn : String} {st st' : PState}
    {r : PendRec} (hr : r.sha = r.comment)
    (h : applyDecisionAndEmit c fn st r = some st') (hinv : failInv D0 st) :
    failInv D0 st' := by
  obtain ⟨hdec, hpend, _, happ, _, _, keep, hkeep, hcom⟩ := emit_spec h
  obtain ⟨i1, i2, i3, i4, i5, i6⟩ := hinv
  refine ⟨?_, ?_, ?_, ?_, ?_, ?_⟩
  · intro k v hk; rw [hdec]; exact i1 k v hk
  · intro k v hk; rw [hdec] at hk; exact i2 k v hk
  · rw [happ]; exact i3
  · intro rec hrec
    rw [hcom] at hrec
    rcases List.mem_append.mp hrec with hrec | hrec
    · rw [hdec]; exact i4 rec hrec
    · rw [List.mem_singleton] at hrec
      subst hrec
      rw [hdec]; exact hkeep
  · intro rec hrec
    rw [hcom] at hrec
    rcases List.mem_append.mp hrec with hrec | hrec
    · exact i5 rec hrec
    · rw [List.mem_singleton] at hrec
      subst hrec
      exact hr
  · intro r' hr'; rw [hpend] at hr'; exact i6 r' hr'

theorem failInv_setdefault {D0 : DMap} {st : PState} {r : PendRec}
    (hr : r.sha = r.comment) (hinv : failInv D0 st) :
    failInv D0 { st with
      decisions := dsetdefault st.decisions r.sha (defaultKeep r.comment) } := by
  obtain ⟨i1, i2, i3, i4, i5, i6⟩ := hinv
  refine ⟨?_, ?_, i3, ?_, i5, i6⟩
  · intro k v hk
    exact dsetdefault_pres _ _ (i1 k v hk)
  · intro k v hk
    rcases dsetdefault_lookup hk with hk' | ⟨rfl, rfl, _⟩
    · exact i2 k v hk'
    · exact Or.inr (by rw [hr])
  · intro rec hrec
    exact dsetdefault_pres _ _ (i4 rec hrec)

theorem failInv_applyAll {D0 : DMap} (c : Content) (fn : String) :
    ∀ (l : List PendRec) (st st' : PState), (∀ r ∈ l, r.sha = r.comment) →
      applyAll c fn st l = some st' → failInv D0 st → failInv D0 st' := by
  intro l
  induction l with
  | nil => intro st st' _ h hinv; cases h; exact hinv
  | cons r t ih =>
    intro st st' hsha h hinv
    simp only [applyAll] at h
    cases h2 : applyDecisionAndEmit c fn
        { st with decisions := dsetdefault st.decisions r.sha (defaultKeep r.comment) } r with
    | none => rw [h2] at h; cases h
    | some st2 =>
      rw [h2] at h
      have hr := hsha r (List.mem_cons_self _ _)
      have hinv2 := failInv_emit hr h2 (failInv_setdefault hr hinv)
      exact ih st2 st' (fun q hq => hsha q (List.mem_cons_of_mem _ hq)) h hinv2

theorem newEntries_failure (fn : String) (st : PState) :
    newEntries fn oracleFailure st = [] := by
  unfold newEntries oracleFailure
  simp

theorem failInv_flushQuery {D0 : DMap} (fn : String) {st : PState}
    (hinv : failInv D0 st) :
    failInv D0 (flushQueryState fn oracleFailure st) := by
  unfold flushQueryState
  split
  · exact hinv
  · simp only [newEntries_failure, List.foldl_nil, List.append_nil]
    exact ⟨hinv.1, hinv.2.1, hinv.2.2.1, hinv.2.2.2.1, hinv.2.2.2.2.1,
      hinv.2.2.2.2.2⟩

theorem failInv_flush {D0 : DMap} {c : Content} {fn : String} {st st' : PState}
    (h : flushPending c fn oracleFailure st = some st') (hinv : failInv D0 st) :
    failInv D0 st' := by
  unfold flushPending at h
  split at h
  next => cases h; exact hinv
  next =>
    cases h2 : applyAll c fn (flushQueryState fn oracleFailure st)
        (flushQueryState fn oracleFailure st).pending with
    | none => rw [h2] at h; cases h
    | some st2 =>
      rw [h2] at h
      cases h
      have hq := failInv_flushQuery fn hinv
      have hsha : ∀ r ∈ (flushQueryState fn oracleFailure st).pending,
          r.sha = r.comment := by
        rw [(flushQueryState_frame fn oracleFailure st).1]
        exact hinv.2.2.2.2.2
      have hfin := failInv_applyAll c fn _ _ _ hsha h2 hq
      exact ⟨hfin.1, hfin.2.1, hfin.2.2.1, hfin.2.2.2.1, hfin.2.2.2.2.1,
        by intro r hr; cases hr⟩

theorem failInv_step {D0 : DMap} {c : Content} {fn : String}
    {bufSize ctxMax : Nat} {st st' : PState} {sp : Span} {nextS : Option Nat}
    (h : stepSpan c fn oracleFailure bufSize ctxMax st sp nextS = some st')
    (hinv : failInv D0 st) : failInv D0 st' := by
  simp only [stepSpan] at h
  split at h
  · cases h; exact hinv
  · have hinv1 : failInv D0
        { st with curCtx := makeCodeContext c sp.e nextS ctxMax } :=
      ⟨hinv.1, hinv.2.1, hinv.2.2.1, hinv.2.2.2.1, hinv.2.2.2.2.1,
        hinv.2.2.2.2.2⟩
    split at h
    · split at h
      next => cases h
      next stf hf =>
        exact failInv_emit rfl h (failInv_flush hf hinv1)
    · have hinv2 : failInv D0 { st with
          curCtx := makeCodeContext c sp.e nextS ctxMax,
          pending := st.pending ++
            [⟨sp.s, sp.e, slice c sp.s sp.e, slice c sp.s sp.e,
              makeCodeContext c sp.e nextS ctxMax⟩] } := by
        refine ⟨hinv.1, hinv.2.1, hinv.2.2.1, hinv.2.2.2.1, hinv.2.2.2.2.1, ?_⟩
        intro r hr
        rcases List.mem_append.mp hr with hr | hr
        · exact hinv.2.2.2.2.2 r hr
        · rw [List.mem_singleton] at hr
          subst hr
          rfl
      split at h
      · exact failInv_flush h hinv2
      · cases h; exact hinv2

theorem failInv_runSpans {D0 : DMap} {c : Content} {fn : String}
    {bufSize ctxMax : Nat} : ∀ (spans : List Span) (st st' : PState),
    runSpans c fn oracleFailure bufSize ctxMax st spans = some st' →
    failInv D0 st → failInv D0 st' := by
  intro spans
  induction spans with
  | nil => intro st st' h hinv; cases h; exact hinv
  | cons sp rest ih =>
    intro st st' h hinv
    simp only [runSpans] at h
    cases h1 : stepSpan c fn oracleFailure bufSize ctxMax st sp
        ((rest.head?).map Span.s) with
    | none => rw [h1] at h; cases h
    | some st1 =>
      rw [h1] at h
      exact ih st1 st' h (failInv_step h1 hinv)

/-- A run whose oracle answers nothing completes, appends nothing to the
persistent cache, and resolves every comment either from the replayed
cache or by the default policy. -/
theorem extract_failure_spec (fn : String) (c : Content)
    (log : List (Content × Bool)) (bufSize ctxMax : Nat) :
    ∃ r, extractStripCryComments fn c log oracleFailure bufSize ctxMax = some r ∧
      r.appendLog = [] ∧
      ∀ rec ∈ r.comments, rec.sha = rec.comment ∧
        dlookup r.decisions rec.sha = some rec.keep ∧
        (dlookup (replayLog log) rec.sha = some rec.keep ∨
          rec.keep = defaultKeep rec.comment) := by
  obtain ⟨st1, h1⟩ := runSpans_ex c fn oracleFailure bufSize ctxMax
    (collectSpans c) ⟨replayLog log, 0, [], [], [], [], [], 0, []⟩
  obtain ⟨st2, h2⟩ := flushPending_ex c fn oracleFailure st1
  have hinv0 : failInv (replayLog log)
      (⟨replayLog log, 0, [], [], [], [], [], 0, []⟩ : PState) := by
    refine ⟨fun k v h => h, fun k v h => Or.inl h, rfl, ?_, ?_, ?_⟩ <;>
      (intro rec hrec; cases hrec)
  have hinv1 := failInv_runSpans (collectSpans c) _ _ h1 hinv0
  have hinv2 := failInv_flush h2 hinv1
  have hex : extractStripCryComments fn c log oracleFailure bufSize ctxMax =
      some ⟨st2.comments,
        ((if st2.idx < c.length then st2.outParts ++ [slice c st2.idx c.length]
          else st2.outParts).flatten).dropWhile (fun ch => ch = '\n'),
        st2.decisions, st2.appendLog, st2.oracleCalls, st2.queried⟩ := by
    simp only [extractStripCryComments, h1, h2]
  refine ⟨_, hex, hinv2.2.2.1, ?_⟩
  intro rec hrec
  have hkeep := hinv2.2.2.2.1 rec hrec
  have hsha := hinv2.2.2.2.2.1 rec hrec
  rcases hinv2.2.1 rec.sha rec.keep hkeep with hc | hd
  · exact ⟨hsha, hkeep, Or.inl hc⟩
  · exact ⟨hsha, hkeep, Or.inr (by rw [hd, hsha])⟩

/-- C4: when the oracle call fails (modelled per the spec as the
collaborator returning no results), extraction still completes — the
failure is not propagated to the caller — and every comment whose
fingerprint is not in the replayed cache is resolved by the deterministic
default policy `keep = (len < 500)`. -/
theorem C4_oracle_failure_fallback (fn : String) (c : Content)
    (log : List (Content × Bool)) (bufSize ctxMax : Nat) :
    ∃ r, extractStripCryComments fn c log oracleFailure bufSize ctxMax = some r ∧
      ∀ rec ∈ r.comments, dlookup (replayLog log) rec.sha = none →
        rec.keep = defaultKeep rec.comment := by
  obtain ⟨r, hr, _, hrec⟩ := extract_failure_spec fn c log bufSize ctxMax
  refine ⟨r, hr, ?_⟩
  intro rec hmem hnone
  rcases (hrec rec hmem).2.2 with hc | hd
  · rw [hnone] at hc; cases hc
  · exact hd

/-- C4 witness: a concrete failing-oracle run. -/
theorem C4_oracle_failure_fallback_witness :
    ∃ r, extractStripCryComments "f" ("// a\nx\n".toList) [] oracleFailure
        8 600 = some r ∧
      ∀ rec ∈ r.comments, dlookup (replayLog []) rec.sha = none →
        rec.keep = defaultKeep rec.comment :=
  C4_oracle_failure_fallback "f" ("// a\nx\n".toList) [] 8 600

/-- C5 (amended): an item the oracle did not resolve gets the default
decision `keep = (len < 500)` recorded in the in-memory decisions map
(where later occurrences in the same run will find it), but nothing is
appended to the persistent decision cache, so the default is not cached
for future runs. -/
theorem C5_default_inmemory_only (fn : String) (c : Content)
    (log : List (Content × Bool)) (bufSize ctxMax : Nat) :
    ∃ r, extractStripCryComments fn c log oracleFailure bufSize ctxMax = some r ∧
      r.appendLog = [] ∧
      ∀ rec ∈ r.comments, dlookup (replayLog log) rec.sha = none →
        rec.keep = defaultKeep rec.comment ∧
        dlookup r.decisions rec.sha = some (defaultKeep rec.comment) := by
  obtain ⟨r, hr, hlog, hrec⟩ := extract_failure_spec fn c log bufSize ctxMax
  refine ⟨r, hr, hlog, ?_⟩
  intro rec hmem hnone
  obtain ⟨hsha, hkeep, hcd⟩ := hrec rec hmem
  rcases hcd with hc | hd
  · rw [hnone] at hc; cases hc
  · exact ⟨hd, by rw [← hd]; exact hkeep⟩

/-- C5 witness: a concrete failing-oracle run. -/
theorem C5_default_inmemory_only_witness :
    ∃ r, extractStripCryComments "f" ("// a\nx\n".toList) [] oracleFailure
        8 600 = some r ∧
      r.appendLog = [] ∧
      ∀ rec ∈ r.comments, dlookup (replayLog []) rec.sha = none →
        rec.keep = defaultKeep rec.comment ∧
        dlookup r.decisions rec.sha = some (defaultKeep rec.comment) :=
  C5_default_inmemory_only "f" ("// a\nx\n".toList) [] 8 600

/-! ## Runs with a fully answering oracle: cache consistency -/

theorem dsetdefault_isSome_noop {m : DMap} {k : Content} (v : Bool)
    (h : (dlookup m k).isSome = true) : dsetdefault m k v = m := by
  unfold dsetdefault
  cases hl : dlookup m k with
  | none => rw [hl] at h; cases h
  | some _ => rfl

theorem applyAll_decisions_eq (c : Content) (fn : String) :
    ∀ (l : List PendRec) (st st' : PState),
    (∀ r ∈ l, (dlookup st.decisions r.sha).isSome = true) →
    applyAll c fn st l = some st' → st'.decisions = st.decisions := by
  intro l
  induction l with
  | nil => intro st st' _ h; cases h; rfl
  | cons r t ih =>
    intro st st' hall h
    simp only [applyAll] at h
    rw [dsetdefault_isSome_noop (defaultKeep r.comment)
      (hall r (List.mem_cons_self _ _))] at h
    cases h2 : applyDecisionAndEmit c fn { st with decisions := st.decisions } r with
    | none => rw [h2] at h; cases h
    | some st2 =>
      rw [h2] at h
      have hd2 : st2.decisions = st.decisions := (emit_spec h2).1
      have hall2 : ∀ q ∈ t, (dlookup st2.decisions q.sha).isSome = true := by
        intro q hq
        rw [hd2]
        exact hall q (List.mem_cons_of_mem _ hq)
      rw [ih st2 st' hall2 h, hd2]

theorem zip_full_keys : ∀ (A : List PendRec) (B : List Bool),
    A.length ≤ B.length → ∀ r ∈ A,
    ∃ p ∈ (A.zip B).map (fun p => (p.1.sha, p.2)), p.1 = r.sha := by
  intro A
  induction A with
  | nil => simp
  | cons a t ih =>
    intro B hlen r hr
    cases B with
    | nil => simp at hlen
    | cons b tb =>
      rcases List.mem_cons.mp hr with rfl | hr
      · exact ⟨(r.sha, b), by simp, rfl⟩
      · obtain ⟨p, hp, hpk⟩ := ih tb (by simpa using hlen) r hr
        exact ⟨p, by simp [hp], hpk⟩

theorem foldl_ins_isSome_cases (ps : List (Content × Bool)) (m : DMap)
    (k : Content)
    (h : (dlookup (ps.foldl (fun m p => dinsert m p.1 p.2) m) k).isSome = true) :
    (dlookup m k).isSome = true ∨ ∃ p ∈ ps, p.1 = k := by
  rcases Option.isSome_iff_exists.mp h with ⟨v, hv⟩
  rcases foldl_ins_lookup ps m k v hv with h' | h' | h'
  · exact Or.inl (by simp [h'])
  · exact Or.inr ⟨(k, v), h', rfl⟩
  · exact Or.inr h'

theorem flushQuery_pending_cached {fn : String} {oracle : Oracle} {st : PState}
    (hfull : ∀ items, (oracle items).length = items.length) :
    ∀ r ∈ st.pending,
      (dlookup (flushQueryState fn oracle st).decisions r.sha).isSome = true := by
  intro r hr
  unfold flushQueryState
  split
  next hq =>
    have hnn := (List.filter_eq_nil.mp hq) r hr
    rw [Option.isNone_iff_eq_none] at hnn
    exact Option.isSome_iff_ne_none.mpr hnn
  next =>
    show (dlookup ((newEntries fn oracle st).foldl
      (fun m p => dinsert m p.1 p.2) st.decisions) r.sha).isSome = true
    by_cases hc : (dlookup st.decisions r.sha).isSome = true
    · exact foldl_ins_pres _ _ _ hc
    · have hrq : r ∈ toQueryOf st := by
        unfold toQueryOf
        refine List.mem_filter.mpr ⟨hr, ?_⟩
        rw [Option.not_isSome_iff_eq_none] at hc
        simp [hc]
      have hlen : (toQueryOf st).length ≤
          (oracle ((toQueryOf st).map
            (fun r => QItem.mk r.comment fn r.ctx))).length := by
        rw [hfull]
        simp
      obtain ⟨p, hp, hpk⟩ := zip_full_keys (toQueryOf st) _ hlen r hrq
      exact foldl_ins_mem _ _ _ ⟨p, hp, hpk⟩

theorem runInv_flushQuery {log : List (Content × Bool)} (fn : String)
    (oracle : Oracle) {st : PState} (hinv : runInv log st) :
    runInv log (flushQueryState fn oracle st) := by
  obtain ⟨i1, i2, i3, i4, i5⟩ := hinv
  unfold flushQueryState
  split
  · exact ⟨i1, i2, i3, i4, i5⟩
  · refine ⟨?_, ?_, ?_, ?_, i5⟩
    · intro k hk
      have hk' : (dlookup ((newEntries fn oracle st).foldl
          (fun m p => dinsert m p.1 p.2) st.decisions) k).isSome = true := hk
      show (dlookup (replayLog (log ++
        (st.appendLog ++ newEntries fn oracle st))) k).isSome = true
      rw [show log ++ (st.appendLog ++ newEntries fn oracle st) =
        (log ++ st.appendLog) ++ newEntries fn oracle st from
        (List.append_assoc _ _ _).symm, replayLog_append]
      rcases foldl_ins_isSome_cases _ _ _ hk' with hold | ⟨p, hp, hpk⟩
      · exact foldl_ins_pres _ _ _ (i1 k hold)
      · exact foldl_ins_mem _ _ _ ⟨p, hp, hpk⟩
    · intro rec hrec
      exact foldl_ins_pres _ _ _ (i2 rec hrec)
    · intro k hk
      exact foldl_ins_pres _ _ _ (i3 k hk)
    · intro q hq
      have hq' : q ∈ st.queried ++ (toQueryOf st).map
          (fun r => QItem.mk r.comment fn r.ctx) := hq
      rcases List.mem_append.mp hq' with hqo | hqn
      · exact i4 q hqo
      · rcases List.mem_map.mp hqn with ⟨r, hr, rfl⟩
        have hrp := List.mem_filter.mp hr
        have hnone : dlookup st.decisions r.sha = none := by
          simpa [Option.isNone_iff_eq_none] using hrp.2
        have hshac : r.sha = r.comment := i5 r hrp.1
        show dlookup (replayLog log) r.comment = none
        cases hD : dlookup (replayLog log) r.comment with
        | none => rfl
        | some v =>
          have hin : (dlookup st.decisions r.comment).isSome = true :=
            i3 r.comment (by simp [hD])
          rw [← hshac, hnone] at hin
          cases hin

theorem runInv_emit {log : List (Content × Bool)} {c : Content} {fn : String}
    {st st' : PState} {r : PendRec}
    (h : applyDecisionAndEmit c fn st r = some st') (hinv : runInv log st) :
    runInv log st' := by
  obtain ⟨hdec, hpend, hctx, happ, hcalls, hqr, keep, hkeep, hcom⟩ := emit_spec h
  obtain ⟨i1, i2, i3, i4, i5⟩ := hinv
  refine ⟨?_, ?_, ?_, ?_, ?_⟩
  · intro k hk
    rw [hdec] at hk
    rw [happ]
    exact i1 k hk
  · intro rec hrec
    rw [hcom] at hrec
    rcases List.mem_append.mp hrec with hrec | hrec
    · rw [hdec]; exact i2 rec hrec
    · rw [List.mem_singleton] at hrec
      subst hrec
      rw [hdec]
      simp [hkeep]
  · intro k hk
    rw [hdec]
    exact i3 k hk
  · intro q hq
    rw [hqr] at hq
    exact i4 q hq
  · intro r' hr'
    rw [hpend] at hr'
    exact i5 r' hr'

theorem runInv_applyAll {log : List (Content × Bool)} (c : Content)
    (fn : String) : ∀ (l : List PendRec) (st st' : PState),
    (∀ r ∈ l, (dlookup st.decisions r.sha).isSome = true) →
    applyAll c fn st l = some st' → runInv log st → runInv log st' := by
  intro l
  induction l with
  | nil => intro st st' _ h hinv; cases h; exact hinv
  | cons r t ih =>
    intro st st' hall h hinv
    simp only [applyAll] at h
    rw [dsetdefault_isSome_noop (defaultKeep r.comment)
      (hall r (List.mem_cons_self _ _))] at h
    cases h2 : applyDecisionAndEmit c fn { st with decisions := st.decisions } r with
    | none => rw [h2] at h; cases h
    | some st2 =>
      rw [h2] at h
      have hd2 : st2.decisions = st.decisions := (emit_spec h2).1
      have hall2 : ∀ q ∈ t, (dlookup st2.decisions q.sha).isSome = true := by
        intro q hq
        rw [hd2]
        exact hall q (List.mem_cons_of_mem _ hq)
      exact ih st2 st' hall2 h (runInv_emit h2 hinv)

theorem runInv_flush {log : List (Content × Bool)} {c : Content} {fn : String}
    {oracle : Oracle} {st st' : PState}
    (hfull : ∀ items, (oracle items).length = items.length)
    (h : flushPending c fn oracle st = some st') (hinv : runInv log st) :
    runInv log st' := by
  unfold flushPending at h
  split at h
  next => cases h; exact hinv
  next =>
    cases h2 : applyAll c fn (flushQueryState fn oracle st)
        (flushQueryState fn oracle st).pending with
    | none => rw [h2] at h; cases h
    | some st2 =>
      rw [h2] at h
      cases h
      have hq := runInv_flushQuery fn oracle hinv
      have hall : ∀ r ∈ (flushQueryState fn oracle st).pending,
          (dlookup (flushQueryState fn oracle st).decisions r.sha).isSome = true := by
        rw [(flushQueryState_frame fn oracle st).1]
        exact flushQuery_pending_cached hfull
      have hfin := runInv_applyAll c fn _ _ _ hall h2 hq
      exact ⟨hfin.1, hfin.2.1, hfin.2.2.1, hfin.2.2.2.1,
        fun r hr => absurd hr (List.not_mem_nil r)⟩

theorem runInv_step {log : List (Content × Bool)} {c : Content} {fn : String}
    {oracle : Oracle} {bufSize ctxMax : Nat} {st st' : PState} {sp : Span}
    {nextS : Option Nat}
    (hfull : ∀ items, (oracle items).length = items.length)
    (h : stepSpan c fn oracle bufSize ctxMax st sp nextS = some st')
    (hinv : runInv log st) : runInv log st' := by
  simp only [stepSpan] at h
  split at h
  · cases h; exact hinv
  · have hinv1 : runInv log
        { st with curCtx := makeCodeContext c sp.e nextS ctxMax } :=
      ⟨hinv.1, hinv.2.1, hinv.2.2.1, hinv.2.2.2.1, hinv.2.2.2.2⟩
    split at h
    · split at h
      next => cases h
      next stf hf => exact runInv_emit h (runInv_flush hfull hf hinv1)
    · have hinv2 : runInv log { st with
          curCtx := makeCodeContext c sp.e nextS ctxMax,
          pending := st.pending ++
            [⟨sp.s, sp.e, slice c sp.s sp.e, slice c sp.s sp.e,
              makeCodeContext c sp.e nextS ctxMax⟩] } := by
        refine ⟨hinv.1, hinv.2.1, hinv.2.2.1, hinv.2.2.2.1, ?_⟩
        intro r' hr'
        rcases List.mem_append.mp hr' with hr' | hr'
        · exact hinv.2.2.2.2 r' hr'
        · rw [List.mem_singleton] at hr'
          subst hr'
          rfl
      split at h
      · exact runInv_flush hfull h hinv2
      · cases h; exact hinv2

theorem runInv_runSpans {log : List (Content × Bool)} {c : Content}
    {fn : String} {oracle : Oracle} {bufSize ctxMax : Nat}
    (hfull : ∀ items, (oracle items).length = items.length) :
    ∀ (spans : List Span) (st st' : PState),
    runSpans c fn oracle bufSize ctxMax st spans = some st' →
    runInv log st → runInv log st' := by
  intro spans
  induction spans with
  | nil => intro st st' h hinv; cases h; exact hinv
  | cons sp rest ih =>
    intro st st' h hinv
    simp only [runSpans] at h
    cases h1 : stepSpan c fn oracle bufSize ctxMax st sp
        ((rest.head?).map Span.s) with
    | none => rw [h1] at h; cases h
    | some st1 =>
      rw [h1] at h
      exact ih st1 st' h (runInv_step hfull h1 hinv)

theorem flushPending_empty (c : Content) (fn : String) (oracle : Oracle)
    (st : PState) (hp : st.pending = []) :
    flushPending c fn oracle st = some st := by
  unfold flushPending
  rw [if_pos hp]

/-- A loop over spans whose fingerprints are all cached keeps the buffer
empty and never consults the oracle. -/
theorem runSpans_zero (c : Content) (fn : String) (oracle : Oracle)
    (bufSize ctxMax : Nat) : ∀ (spans : List Span) (st : PState),
    (∀ sp ∈ spans, (dlookup st.decisions (slice c sp.s sp.e)).isSome = true) →
    st.pending = [] →
    ∃ st', runSpans c fn oracle bufSize ctxMax st spans = some st' ∧
      st'.pending = [] ∧ st'.oracleCalls = st.oracleCalls ∧
      st'.queried = st.queried ∧ st'.decisions = st.decisions := by
  intro spans
  induction spans with
  | nil =>
    intro st _ hp
    exact ⟨st, rfl, hp, rfl, rfl, rfl⟩
  | cons sp rest ih =>
    intro st hcached hp
    have hsp := hcached sp (List.mem_cons_self _ _)
    by_cases hskip : sp.s < st.idx
    · obtain ⟨st', hrun, h1, h2, h3, h4⟩ := ih st
        (fun sp' hsp' => hcached sp' (List.mem_cons_of_mem _ hsp')) hp
      refine ⟨st', ?_, h1, h2, h3, h4⟩
      simp only [runSpans, stepSpan, if_pos hskip]
      exact hrun
    · have hpc : ({ st with curCtx := (makeCodeContext c sp.e
          ((rest.head?).map Span.s) ctxMax) } : PState).pending = [] := hp
      have hflush := flushPending_empty c fn oracle
        { st with curCtx := (makeCodeContext c sp.e
          ((rest.head?).map Span.s) ctxMax) } hpc
      obtain ⟨st1, hemit⟩ := @emit_isSome c fn
        { st with curCtx := (makeCodeContext c sp.e
          ((rest.head?).map Span.s) ctxMax) }
        ⟨sp.s, sp.e, slice c sp.s sp.e, slice c sp.s sp.e,
          makeCodeContext c sp.e ((rest.head?).map Span.s) ctxMax⟩ hsp
      obtain ⟨hdec, hpend, hctx, happ, hcalls, hqr, keep, hkeep, hcom⟩ :=
        emit_spec hemit
      obtain ⟨st', hrun, h1, h2, h3, h4⟩ := ih st1
        (fun sp' hsp' => by
          rw [hdec]
          exact hcached sp' (List.mem_cons_of_mem _ hsp'))
        (by rw [hpend]; exact hp)
      refine ⟨st', ?_, h1, ?_, ?_, ?_⟩
      · simp only [runSpans, stepSpan, if_neg hskip, if_pos hsp, hflush, hemit]
        exact hrun
      · rw [h2, hcalls]
      · rw [h3, hqr]
      · rw [h4, hdec]

/-- After a run whose oracle answered every query: extraction completes,
no initially-cached fingerprint was ever sent to the oracle, and every
detected span's fingerprint is resolvable from the original cache log
extended by the entries this run appended. -/
theorem extract_full_oracle_spec (fn : String) (c : Content)
    (log : List (Content × Bool)) (oracle : Oracle) (bufSize ctxMax : Nat)
    (hfull : ∀ items, (oracle items).length = items.length) :
    ∃ r, extractStripCryComments fn c log oracle bufSize ctxMax = some r ∧
      (∀ q ∈ r.queried, dlookup (replayLog log) q.comment = none) ∧
      ∀ sp ∈ collectSpans c,
        (dlookup (replayLog (log ++ r.appendLog))
          (slice c sp.s sp.e)).isSome = true := by
  obtain ⟨st1, h1⟩ := runSpans_ex c fn oracle bufSize ctxMax (collectSpans c)
    ⟨replayLog log, 0, [], [], [], [], [], 0, []⟩
  obtain ⟨st2, h2⟩ := flushPending_ex c fn oracle st1
  have hinv0 : runInv log (⟨replayLog log, 0, [], [], [], [], [], 0, []⟩ : PState) := by
    refine ⟨?_, ?_, ?_, ?_, ?_⟩
    · intro k hk
      simpa using hk
    · intro rec hrec; cases hrec
    · intro k hk; exact hk
    · intro q hq; cases hq
    · intro r hr; cases hr
  have hinv1 := runInv_runSpans hfull (collectSpans c) _ _ h1 hinv0
  have hinv2 := runInv_flush hfull h2 hinv1
  have hcov := runSpans_covers c fn oracle bufSize ctxMax (collectSpans c)
    ⟨replayLog log, 0, [], [], [], [], [], 0, []⟩ st1 h1
    (collectSpans_sorted c).1
    (fun sp hsp => ⟨(collectSpans_sorted c).2 sp hsp, (collectSpans_bounds hsp).2⟩)
    (fun sp _ => Nat.zero_le _)
    (fun r hr => absurd hr (List.not_mem_nil r))
  have hex : extractStripCryComments fn c log oracle bufSize ctxMax =
      some ⟨st2.comments,
        ((if st2.idx < c.length then st2.outParts ++ [slice c st2.idx c.length]
          else st2.outParts).flatten).dropWhile (fun ch => ch = '\n'),
        st2.decisions, st2.appendLog, st2.oracleCalls, st2.queried⟩ := by
    simp only [extractStripCryComments, h1, h2]
  refine ⟨_, hex, hinv2.2.2.2.1, ?_⟩
  intro sp hsp
  rcases hcov.1 sp hsp with ⟨rec, hrec, hsha⟩ | ⟨r0, hr0, hsha⟩
  · have hrec2 := (flushPending_mono h2).1 rec hrec
    have hks := hinv2.2.1 rec hrec2
    have hrep := hinv2.1 rec.sha hks
    rw [hsha] at hrep
    exact hrep
  · obtain ⟨rec, hrec2, hsha2⟩ := (flushPending_mono h2).2.2 r0 hr0
    have hks := hinv2.2.1 rec hrec2
    have hrep := hinv2.1 rec.sha hks
    rw [hsha2, hsha] at hrep
    exact hrep

/-- A run over a document whose every span fingerprint is already in the
replayed cache issues zero oracle calls. -/
theorem extract_zero_calls (fn : String) (c : Content)
    (log : List (Content × Bool)) (oracle : Oracle) (bufSize ctxMax : Nat)
    (hall : ∀ sp ∈ collectSpans c,
      (dlookup (replayLog log) (slice c sp.s sp.e)).isSome = true) :
    ∃ r, extractStripCryComments fn c log oracle bufSize ctxMax = some r ∧
      r.oracleCalls = 0 ∧ r.queried = [] := by
  obtain ⟨st1, h1, hp1, hc1, hq1, hd1⟩ := runSpans_zero c fn oracle bufSize
    ctxMax (collectSpans c) ⟨replayLog log, 0, [], [], [], [], [], 0, []⟩
    hall rfl
  have h2 := flushPending_empty c fn oracle st1 hp1
  have hex : extractStripCryComments fn c log oracle bufSize ctxMax =
      some ⟨st1.comments,
        ((if st1.idx < c.length then st1.outParts ++ [slice c st1.idx c.length]
          else st1.outParts).flatten).dropWhile (fun ch => ch = '\n'),
        st1.decisions, st1.appendLog, st1.oracleCalls, st1.queried⟩ := by
    simp only [extractStripCryComments, h1, h2]
  exact ⟨_, hex, hc1, hq1⟩

/-- C6 (amended): a fingerprint already present in the persisted cache at
the start of a run is never sent to the oracle during that run (once a
decision is recorded for a fingerprint the oracle is not invoked for it
again), and after a run whose oracle answered every query, a second run
on identical input with the persisted cache issues zero oracle calls.
(Two identical uncached comments buffered into the same pending batch
are, however, each sent to the oracle within that batch's single call —
the situation of the counterexample.) -/
theorem C6_cache_consistency (fn : String) (c : Content)
    (log : List (Content × Bool)) (oracle : Oracle) (bufSize ctxMax : Nat)
    (hfull : ∀ items, (oracle items).length = items.length) :
    ∃ r1, extractStripCryComments fn c log oracle bufSize ctxMax = some r1 ∧
      (∀ q ∈ r1.queried, dlookup (replayLog log) q.comment = none) ∧
      ∀ (oracle2 : Oracle) (bufSize2 ctxMax2 : Nat),
        ∃ r2, extractStripCryComments fn c (log ++ r1.appendLog) oracle2
            bufSize2 ctxMax2 = some r2 ∧
          r2.oracleCalls = 0 ∧ r2.queried = [] := by
  obtain ⟨r1, h1, hq, hsp⟩ :=
    extract_full_oracle_spec fn c log oracle bufSize ctxMax hfull
  refine ⟨r1, h1, hq, ?_⟩
  intro oracle2 bufSize2 ctxMax2
  exact extract_zero_calls fn c (log ++ r1.appendLog) oracle2 bufSize2
    ctxMax2 hsp

/-- C6 witness: a concrete first run with a fully answering oracle. -/
theorem C6_cache_consistency_witness :
    ∃ r1, extractStripCryComments "f" ("// a\nx\n// a\n".toList) []
        oracleConstTrue 8 600 = some r1 ∧
      (∀ q ∈ r1.queried, dlookup (replayLog []) q.comment = none) ∧
      ∀ (oracle2 : Oracle) (bufSize2 ctxMax2 : Nat),
        ∃ r2, extractStripCryComments "f" ("// a\nx\n// a\n".toList)
            ([] ++ r1.appendLog) oracle2 bufSize2 ctxMax2 = some r2 ∧
          r2.oracleCalls = 0 ∧ r2.queried = [] :=
  C6_cache_consistency "f" ("// a\nx\n// a\n".toList) [] oracleConstTrue 8 600
    (fun items => by simp [oracleConstTrue])

/-! ## Concrete scenario theorems -/

/-- C1: the claim expects input `"let y = x + 1 // trailing\n"` with
`keep = False` on the inline comment to produce `"let y = x + 1\n"`.  The
code instead produces `"let y = x + 1 "`: the space before the comment is
kept (only the comment's byte range is excised), and the trailing line
break is consumed by the unconditional blank-line-consuming loop that runs
after every drop. -/
theorem C1_counterexample :
    (extractStripCryComments "f" ("let y = x + 1 // trailing\n".toList)
        [("// trailing".toList, false)] oracleConstTrue 8 600).map
      (fun r => r.content) = some ("let y = x + 1 ".toList) ∧
    ¬((extractStripCryComments "f" ("let y = x + 1 // trailing\n".toList)
        [("// trailing".toList, false)] oracleConstTrue 8 600).map
      (fun r => r.content) = some ("let y = x + 1\n".toList)) := by
  constructor
  · decide
  · decide

/-- C1 (amended): dropping the inline comment excises exactly the
comment's byte range, keeping the code before it (including the
separating space) verbatim, but the loop that consumes blank lines after
a drop also consumes the line break immediately following the excised
comment, so the output is exactly `"let y = x + 1 "`. -/
theorem C1_amended :
    (extractStripCryComments "f" ("let y = x + 1 // trailing\n".toList)
        [("// trailing".toList, false)] oracleConstTrue 8 600).map
      (fun r => (r.content, r.comments.map (fun rec => (rec.comment, rec.keep)))) =
      some ("let y = x + 1 ".toList, [("// trailing".toList, false)]) := by
  decide

/-- C2: the claim expects the span detector to produce, for the
unterminated block comment `"/* oops"`, a comment span extending to the
end of the document.  `BLOCK_RE_CRY` requires a closing `*/`, so no span
at all is produced. -/
theorem C2_counterexample :
    collectSpans ("/* oops".toList) = [] ∧
    ¬(∃ sp ∈ collectSpans ("/* oops".toList),
        sp.e = ("/* oops".toList).length) := by
  constructor
  · decide
  · decide

/-- C2 (amended): an unterminated block comment is not detected as a
comment at all — the span detector returns no span for it — and
extraction still never raises and reproduces the input unchanged
(vacuously for any decisions, since no span means no decision is ever
consulted). -/
theorem C2_amended :
    collectSpans ("/* oops".toList) = [] ∧
    ∀ (fn : String) (log : List (Content × Bool)) (oracle : Oracle),
      (extractStripCryComments fn ("/* oops".toList) log oracle 8 600).map
        (fun r => r.content) = some ("/* oops".toList) := by
  refine ⟨by decide, ?_⟩
  intro fn log oracle
  rfl

/-- C3: on `"// a\nx\n// b\ny\n"` with an empty cache, both comments are
resolved in one flushed batch.  The context computed for the first span
is `"x\n"`, but the emitted record stores `"y\n"` — the context most
recently computed by the loop (for the second span) — because
`_apply_decision_and_emit` reads the closure variable `ctx` instead of
the buffered `rec["ctx"]`. -/
theorem C3_snippet_bug :
    collectSpans ("// a\nx\n// b\ny\n".toList) =
      [⟨0, 4, Kind.line⟩, ⟨7, 11, Kind.line⟩] ∧
    makeCodeContext ("// a\nx\n// b\ny\n".toList) 4 (some 7) 600 =
      "x\n".toList ∧
    (extractStripCryComments "f" ("// a\nx\n// b\ny\n".toList) []
        oracleConstTrue 8 600).map
      (fun r => r.comments.map (fun rec => (rec.comment, rec.snippet))) =
      some [("// a".toList, "y\n".toList), ("// b".toList, "y\n".toList)] ∧
    (extractStripCryComments "f" ("// a\nx\n// b\ny\n".toList) []
        oracleConstTrue 8 600).map (fun r => r.content) =
      some ("// a\nx\n// b\ny\n".toList) ∧
    ¬("y\n".toList = "x\n".toList) := by
  refine ⟨by decide, by decide, by decide, by decide, by decide⟩

/-- C5: the oracle returns no result for the single batched item
`"// a"`; the default `keep = (len < 500) = true` is applied, but nothing
is appended to the persistent decision cache, and a second run on the
same input with the (unchanged) persisted cache sends the same
fingerprint to the oracle again — refuting "recorded in the decision
cache so it is cached for future runs". -/
theorem C5_counterexample :
    (extractStripCryComments "f" ("// a\nx\n".toList) [] oracleFailure 8 600).map
      (fun r => (r.comments.map (fun rec => rec.keep), r.appendLog)) =
      some ([true], []) ∧
    (extractStripCryComments "f" ("// a\nx\n".toList) ([] ++ [])
        oracleFailure 8 600).map
      (fun r => r.queried.map (fun q => q.comment)) =
      some ["// a".toList] := by
  refine ⟨by decide, by decide⟩

/-- C6: two textually identical uncached comments buffered into the same
pending batch are both sent to the oracle: the fingerprint `"// a"`
appears twice in the query stream of the single batched call, so the
second occurrence is not resolved by a cache hit. -/
theorem C6_counterexample :
    (extractStripCryComments "f" ("// a\nx\n// a\n".toList) []
        oracleConstTrue 8 600).map
      (fun r => (r.queried.map (fun q => q.comment), r.oracleCalls)) =
      some (["// a".toList, "// a".toList], 1) := by
  decide

/-- C7: on `"// a\n// b\nlet x = 1\n"` the two line comments are
coalesced into the single span `[0, 9)`, and dropping that span removes
its trailing newline as well, leaving exactly `"let x = 1\n"` with no
blank line behind. -/
theorem C7_coalesced_drop :
    collectSpans ("// a\n// b\nlet x = 1\n".toList) = [⟨0, 9, Kind.line⟩] ∧
    (extractStripCryComments "f" ("// a\n// b\nlet x = 1\n".toList)
        [("// a\n// b".toList, false)] oracleConstTrue 8 600).map
      (fun r => r.content) = some ("let x = 1\n".toList) := by
  refine ⟨by decide, by decide⟩

end DataPreprocess
